import Mathlib

/-!
# Transport model builder and server renderer of `tg`

A shallow embedding of `pkg/generator/transport.go`:

* `NewTransport` (argument splitting, `goMod`, directory scan, service registration),
* `Transport.serviceKeys`,
* `Transport.RenderServer` and `Transport.RenderClient` with `hasTrace`, `hasMetrics` and
  `showError`.

Go strings are embedded as `String`.  Collaborators that live outside the file
(`mod.GoModPath`, `os.ReadFile`, `modfile.Parse`, the directory listing, `filepath.Abs`,
`path.Join`, `astra.ParseFile`, `tags.ParseTags`, `DocTags.Merge`, `DocTags.Contains`,
`DocTags.IsSet`, `newService`, the emitters) are fields of an environment record, so every
statement below holds for all of their possible behaviours.  Calls to them are recorded in a
trace, which is how "what has been read so far" and "what was rendered, in which order" are
observed.
-/

namespace Tg

/-! ## Strings -/

/-- Go `strings.HasPrefix`. -/
def hasPrefix (s pre : String) : Bool := pre.data.isPrefixOf s.data

/-- Go `strings.HasSuffix`. -/
def hasSuffix (s suf : String) : Bool := suf.data.isSuffixOf s.data

/-- Go `strings.TrimPrefix`: `s` without the leading `pre`, or `s` itself. -/
def trimPrefix (s pre : String) : String :=
  if hasPrefix s pre then ⟨s.data.drop pre.data.length⟩ else s

/-- Lexicographic comparison of two character sequences by code point.  Go compares strings
byte by byte; on UTF-8 text both orders coincide. -/
def charsLE : List Char → List Char → Bool
  | [], _ => true
  | _ :: _, [] => false
  | a :: as, b :: bs =>
    if a.toNat < b.toNat then true
    else if b.toNat < a.toNat then false
    else charsLE as bs

/-- The order `a <= b` on Go strings, as used by `sort.Strings` and by `os.ReadDir`. -/
def strLE (a b : String) : Bool := charsLE a.data b.data

/-- Go `sort.Strings`: the list in ascending order. -/
def sortStrings (l : List String) : List String :=
  l.insertionSort (fun a b => strLE a b = true)

/-! ## Data model -/

/-- The Go `error` values are represented by their message. -/
abbrev Error := String

/-- Modelled from the spec: the type `tags.DocTags` (package `tags` is not part of the
sources at hand), "an ordered multi-map from annotation key to one or more string values",
held as the list of its key and value pairs; it is empty exactly when `len` is zero, and the
zero value is empty. -/
abbrev DocTags := List (String × String)

def tagTrace : String := "trace"
def tagMetrics : String := "metrics"
def tagServerJsonRPC : String := "jsonRPC-server"

/-- An `os.DirEntry`, reduced to what `NewTransport` looks at. -/
structure DirEntry where
  name : String
  isDir : Bool
deriving DecidableEq, Repr

/-- A `types.Interface`, reduced to what `NewTransport` looks at. -/
structure Interface where
  name : String
  docs : List String
deriving DecidableEq, Repr

/-- A `types.File`, reduced to what `NewTransport` looks at. -/
structure File where
  docs : List String
  interfaces : List Interface
deriving DecidableEq, Repr

/-- The `Transport` struct; `σ` is the type of a `service`, `μ` of a parsed `modfile.File`.
The Go map `services` is an association list with unique keys, whose order stands for the
unspecified iteration order of the map.  The logger is represented by the trace. -/
structure Transport (σ μ : Type) where
  hasJsonRPC : Bool
  version : String
  modPath : String
  tags : DocTags
  module : Option μ
  services : AList (fun _ : String => σ)

/-- Calls made by `NewTransport` to its collaborators, in program order. -/
inductive Event (σ : Type) where
  | goModPath (dir : String)
  | readFile (path : String)
  | modfileParse (bytes : String)
  | readDir (dir : String)
  | parseFile (path : String)
  | logSkip (iface : String)
  | newService (path : String) (iface : Interface) (svc : σ)

/-- The collaborators of `NewTransport`. -/
structure Env (σ μ : Type) where
  /-- Go `mod.GoModPath`: the value is stored in `tr.modPath` even when an error comes with it -/
  goModPath : String → String × Option Error
  /-- Go `os.ReadFile` -/
  readFile : String → Except Error String
  /-- Go `modfile.Parse` of the bytes read: the value is stored in `tr.module` in any case -/
  modfileParse : String → Option μ × Option Error
  /-- The entries of a directory in the order in which the file system holds them -/
  dirList : String → Except Error (List DirEntry)
  /-- Go `filepath.Abs`, its error dropped as in the source -/
  abs : String → String
  /-- Go `path.Join` of two elements -/
  join : String → String → String
  /-- Package function `astra.ParseFile` -/
  parseFile : String → Except Error File
  /-- Package function `tags.ParseTags` -/
  parseTags : List String → DocTags
  /-- Method `DocTags.Merge` -/
  merge : DocTags → DocTags → DocTags
  /-- Method `DocTags.Contains` -/
  contains : DocTags → String → Bool
  /-- Constructor `newService log &tr filePath iface`; it sees the transport as it is at the call -/
  newService : Transport σ μ → String → Interface → σ
  /-- The field `tags` of a `service` -/
  svcTags : σ → DocTags

variable {σ μ : Type}

/-- The sort at the end of Go `os.ReadDir`: the entries in ascending order of file name. -/
def sortEntries (l : List DirEntry) : List DirEntry :=
  l.insertionSort (fun a b => strLE a.name b.name = true)

/-- Go `os.ReadDir`: "reads the named directory, returning all its directory entries sorted
by filename".  The entries come from the file system in its own order and are sorted by
name before they are returned. -/
def ReadDir (env : Env σ μ) (dir : String) : Except Error (List DirEntry) :=
  match env.dirList dir with
  | .error e => .error e
  | .ok l => .ok (sortEntries l)

/-! ## `NewTransport` -/

/-- The first loop of `NewTransport`: the pair `(include, exclude)` after one argument. -/
def splitStep (acc : List String × List String) (iface : String) : List String × List String :=
  if hasPrefix iface "!" then (acc.1, acc.2 ++ [trimPrefix iface "!"])
  else (acc.1 ++ [iface], acc.2)

/-- The first loop of `NewTransport`: `(include, exclude)`. -/
def splitIfaces (ifaces : List String) : List String × List String :=
  ifaces.foldl splitStep ([], [])

/-- The method `goMod`: transport, error and calls made. -/
def goMod (env : Env σ μ) (tr : Transport σ μ) (svcDir : String) :
    Transport σ μ × Option Error × List (Event σ) :=
  let r := env.goModPath svcDir
  let tr1 := { tr with modPath := r.1 }
  match r.2 with
  | some e => (tr1, some e, [.goModPath svcDir])
  | none =>
    match env.readFile tr1.modPath with
    | .error e => (tr1, some e, [.goModPath svcDir, .readFile tr1.modPath])
    | .ok bytes =>
      let m := env.modfileParse bytes
      ({ tr1 with module := m.1 }, m.2,
        [.goModPath svcDir, .readFile tr1.modPath, .modfileParse bytes])

/-- The body of the loop over `serviceAst.Interfaces`. -/
def scanIface (env : Env σ μ) (incl excl : List String) (filePath : String)
    (st : Transport σ μ × List (Event σ)) (iface : Interface) :
    Transport σ μ × List (Event σ) :=
  if incl.length ≠ 0 ∧ ¬ incl.contains iface.name = true then
    (st.1, st.2 ++ [.logSkip iface.name])
  else if excl.length ≠ 0 ∧ excl.contains iface.name = true then
    (st.1, st.2 ++ [.logSkip iface.name])
  else if (env.parseTags iface.docs).length ≠ 0 then
    let service := env.newService st.1 filePath iface
    let tr1 := { st.1 with services := st.1.services.insert iface.name service }
    let tr2 := if env.contains (env.svcTags service) tagServerJsonRPC = true
      then { tr1 with hasJsonRPC := true } else tr1
    (tr2, st.2 ++ [.newService filePath iface service])
  else st

/-- The variables the loop over `files` changes. -/
structure ScanState (σ μ : Type) where
  tr : Transport σ μ
  svcDir : String
  trace : List (Event σ)

/-- The body of the loop over `files`; `some e` is the early `return` with `err = e`. -/
def scanFile (env : Env σ μ) (incl excl : List String) (st : ScanState σ μ)
    (file : DirEntry) : ScanState σ μ × Option Error :=
  if file.isDir = true ∨ ¬ hasSuffix file.name ".go" = true then (st, none)
  else
    let svcDir := env.abs st.svcDir
    let filePath := env.join svcDir file.name
    let trace := st.trace ++ [.parseFile filePath]
    match env.parseFile filePath with
    | .error e => ({ st with svcDir := svcDir, trace := trace }, some e)
    | .ok serviceAst =>
      let tr1 := { st.tr with tags := env.merge st.tr.tags (env.parseTags serviceAst.docs) }
      let r := serviceAst.interfaces.foldl (scanIface env incl excl filePath) (tr1, trace)
      ({ tr := r.1, svcDir := svcDir, trace := r.2 }, none)

/-- The loop over `files`. -/
def scanFiles (env : Env σ μ) (incl excl : List String) :
    List DirEntry → ScanState σ μ → ScanState σ μ × Option Error
  | [], st => (st, none)
  | f :: fs, st =>
    match scanFile env incl excl st f with
    | (st1, some e) => (st1, some e)
    | (st1, none) => scanFiles env incl excl fs st1

/-- The transport after the first three assignments of `NewTransport`. -/
def emptyTransport (version : String) : Transport σ μ :=
  { hasJsonRPC := false, version := version, modPath := "", tags := [], module := none,
    services := ∅ }

/-- The result of `NewTransport`, with the calls it made. -/
structure Result (σ μ : Type) where
  tr : Transport σ μ
  err : Option Error
  trace : List (Event σ)

/-- The function `NewTransport log version svcDir ifaces...`. -/
def NewTransport (env : Env σ μ) (version svcDir : String) (ifaces : List String) :
    Result σ μ :=
  let tr0 : Transport σ μ := emptyTransport version
  let ie := splitIfaces ifaces
  if ie.1.length ≠ 0 ∧ ie.2.length ≠ 0 then
    { tr := tr0, err := some "include and exclude cannot be set at same time", trace := [] }
  else
    match goMod env tr0 svcDir with
    | (tr1, some e, t1) => { tr := tr1, err := some e, trace := t1 }
    | (tr1, none, t1) =>
      match ReadDir env svcDir with
      | .error e => { tr := tr1, err := some e, trace := t1 ++ [.readDir svcDir] }
      | .ok files =>
        let r := scanFiles env ie.1 ie.2 files
          { tr := tr1, svcDir := svcDir, trace := t1 ++ [.readDir svcDir] }
        { tr := r.1.tr, err := r.2, trace := r.1.trace }

/-! ## Vocabulary of the statements about `NewTransport` -/

/-- The environment `env` with the directory holding the entries `l`, in that order. -/
def Env.withListing (env : Env σ μ) (l : List DirEntry) : Env σ μ :=
  { env with dirList := fun _ => .ok l }

/-- The paths handed to `astra.ParseFile` when the loop over `files` runs to its end: one for
each entry that is no directory and ends in `.go`, with `svcDir` replaced by its absolute
form before each. -/
def goPaths (env : Env σ μ) : String → List DirEntry → List String
  | _, [] => []
  | svcDir, f :: fs =>
    if f.isDir = true ∨ ¬ hasSuffix f.name ".go" = true then goPaths env svcDir fs
    else env.join (env.abs svcDir) f.name :: goPaths env (env.abs svcDir) fs

/-- The entries that the loop over `files` does not pass over: no directories, names ending
in `.go`. -/
def goFiles (l : List DirEntry) : List DirEntry :=
  l.filter (fun f => !f.isDir && hasSuffix f.name ".go")

/-- The registrations `tr.services[iface.Name] = service` recorded in a trace, oldest
first. -/
def regs : List (Event σ) → List (String × σ)
  | [] => []
  | .newService _ iface svc :: es => (iface.name, svc) :: regs es
  | _ :: es => regs es

/-- An interface name passes the include and exclude lists of `NewTransport`. -/
def retained (incl excl : List String) (name : String) : Prop :=
  (incl.length ≠ 0 → name ∈ incl) ∧ (excl.length ≠ 0 → name ∉ excl)

/-- The service carries the tag `jsonRPC-server`, as `NewTransport` tests it. -/
def isJsonRPC (env : Env σ μ) (svc : σ) : Bool :=
  env.contains (env.svcTags svc) tagServerJsonRPC

/-- The test `len(include) != 0 && len(exclude) != 0` of `NewTransport`. -/
def conflict (ifaces : List String) : Prop :=
  (splitIfaces ifaces).1.length ≠ 0 ∧ (splitIfaces ifaces).2.length ≠ 0

/-- The map after the assignments `m[p.1] = p.2` for the pairs of `l`, in order. -/
def insertAll (m : AList (fun _ : String => σ)) (l : List (String × σ)) :
    AList (fun _ : String => σ) :=
  l.foldl (fun m p => m.insert p.1 p.2) m

/-- The paths of the `.go` files of `svcDir` in the order in which `NewTransport` scans
them (none when the directory cannot be read). -/
def scanPaths (env : Env σ μ) (svcDir : String) : List String :=
  match ReadDir env svcDir with
  | .ok files => goPaths env svcDir files
  | .error _ => []

/-- The interface `iface` of the file at `path` is one that `NewTransport` turns into a
service: the file is scanned and parses, the name passes the include and exclude lists,
and the documentation of the interface yields at least one annotation. -/
def Qualifies (env : Env σ μ) (incl excl : List String) (paths : List String)
    (path : String) (iface : Interface) : Prop :=
  path ∈ paths ∧ (∃ file, env.parseFile path = .ok file ∧ iface ∈ file.interfaces) ∧
    retained incl excl iface.name ∧ (env.parseTags iface.docs).length ≠ 0

/-- What a stretch of the scan with the calls `evs` does to the transport: the services are
the old ones with the registrations of `evs` applied in order, the flag is the old one or
one of the registered services is a JSON-RPC one, and every service registered was built by
`newService` from a qualifying interface. -/
structure Sound (env : Env σ μ) (incl excl : List String) (paths : List String)
    (tr0 tr1 : Transport σ μ) (evs : List (Event σ)) : Prop where
  services : tr1.services = insertAll tr0.services (regs evs)
  flag : tr1.hasJsonRPC = (tr0.hasJsonRPC || (regs evs).any (fun p => isJsonRPC env p.2))
  origin : ∀ path iface svc, Event.newService path iface svc ∈ evs →
    Qualifies env incl excl paths path iface ∧ ∃ tr2, svc = env.newService tr2 path iface

/-- Every qualifying interface of the files at `paths` has been registered by a call in
`evs`. -/
def Complete (env : Env σ μ) (incl excl : List String) (paths : List String)
    (evs : List (Event σ)) : Prop :=
  ∀ path iface, Qualifies env incl excl paths path iface →
    ∃ svc, Event.newService path iface svc ∈ evs

/-- The calls of `newService` recorded in a trace, oldest first: path, interface and the
service returned. -/
def calls : List (Event σ) → List (String × Interface × σ)
  | [] => []
  | .newService path iface svc :: es => (path, iface, svc) :: calls es
  | _ :: es => calls es

/-- The interfaces `newService` was called on according to a trace, each with the path of
its file, oldest first. -/
def callSites (evs : List (Event σ)) : List (String × Interface) :=
  (calls evs).map (fun c => (c.1, c.2.1))

/-- An interface is retained and annotated: its name passes the include and exclude lists and
its documentation yields at least one annotation. -/
def isCandidate (env : Env σ μ) (incl excl : List String) (iface : Interface) : Bool :=
  decide ((incl.length ≠ 0 → iface.name ∈ incl) ∧ (excl.length ≠ 0 → iface.name ∉ excl) ∧
    (env.parseTags iface.docs).length ≠ 0)

/-- The retained, annotated interfaces of the file at `path`, in the order of the file; none
when the file does not parse. -/
def candidatesOf (env : Env σ μ) (incl excl : List String) (path : String) :
    List (String × Interface) :=
  match env.parseFile path with
  | .ok file => (file.interfaces.filter (isCandidate env incl excl)).map (fun i => (path, i))
  | .error _ => []

/-- The retained, annotated interfaces of the files at `paths` in scan order: file after
file in the order of `paths`, and within a file in the order of its interfaces. -/
def candidates (env : Env σ μ) (incl excl : List String) :
    List String → List (String × Interface)
  | [] => []
  | path :: paths => candidatesOf env incl excl path ++ candidates env incl excl paths

/-! ## `serviceKeys` and `RenderServer` -/

/-- The method `serviceKeys`: the keys of `tr.services`, collected in the iteration order of
the map and then sorted by `sort.Strings`. -/
def Transport.serviceKeys (tr : Transport σ μ) : List String :=
  sortStrings tr.services.keys

/-- The emitters `RenderServer` calls once for the whole transport. -/
inductive Emitter where
  | renderHTTP | renderFiber | renderHeader | renderErrors | renderServer | renderOptions
  | renderVersion | renderMetrics | renderTracer | renderJsonRPC
deriving DecidableEq, Repr

/-- The message `RenderServer` hands to `showError` with the result of an emitter. -/
def Emitter.msg : Emitter → String
  | .renderHTTP => "renderHTTP"
  | .renderFiber => "renderFiber"
  | .renderHeader => "renderHeader"
  | .renderErrors => "renderErrors"
  | .renderServer => "renderServer"
  | .renderOptions => "renderOptions"
  | .renderVersion => "renderVersion"
  | .renderMetrics => "renderMetrics"
  | .renderTracer => "renderTracer"
  | .renderJsonRPC => "renderJsonRPC"

/-- What `RenderServer` does to the outside, in program order; calls are recorded with the
error they returned. -/
inductive RenderEvent where
  | cleanup (outDir : String)
  | mkdirAll (outDir : String) (err : Option Error)
  | emit (e : Emitter) (err : Option Error)
  | logError (err : Error) (msg : String)
  | render (serviceName : String) (err : Option Error)
deriving DecidableEq, Repr

/-- The collaborators of `RenderServer`; `W` is the state of the file system, which every
call that writes may change and on which its result may depend. -/
structure RenderEnv (σ μ W : Type) where
  /-- Method `tr.cleanup outDir` -/
  cleanup : Transport σ μ → String → W → W
  /-- Go `os.MkdirAll outDir 0777` -/
  mkdirAll : String → W → Option Error × W
  /-- The emitter methods of the transport, such as `tr.renderHTTP outDir` -/
  emit : Emitter → Transport σ μ → String → W → Option Error × W
  /-- Method `svc.render outDir` of a service -/
  render : σ → String → W → Option Error × W
  /-- Method `DocTags.IsSet` -/
  isSet : DocTags → String → Bool
  /-- The field `tags` of a `service` -/
  svcTags : σ → DocTags

variable {W : Type}

/-- The function `showError`: the error is logged when it is not nil. -/
def showError (err : Option Error) (msg : String) : List RenderEvent :=
  match err with
  | some e => [.logError e msg]
  | none => []

/-- The loop of `hasTrace` and of `hasMetrics` over the sorted names, which returns `true`
at the first service whose tags have `tag` set.  The names are keys of the map, so the
lookup finds a service each time. -/
def hasTagLoop (renv : RenderEnv σ μ W) (tr : Transport σ μ) (tag : String) :
    List String → Bool
  | [] => false
  | serviceName :: rest =>
    match tr.services.lookup serviceName with
    | some svc =>
      if renv.isSet (renv.svcTags svc) tag = true then true else hasTagLoop renv tr tag rest
    | none => hasTagLoop renv tr tag rest

/-- The method `hasTrace`. -/
def Transport.hasTrace (renv : RenderEnv σ μ W) (tr : Transport σ μ) : Bool :=
  hasTagLoop renv tr tagTrace tr.serviceKeys

/-- The method `hasMetrics`. -/
def Transport.hasMetrics (renv : RenderEnv σ μ W) (tr : Transport σ μ) : Bool :=
  hasTagLoop renv tr tagMetrics tr.serviceKeys

/-- A statement `showError(tr.log, tr.emitter(outDir), msg)` of `RenderServer`. -/
def callShared (renv : RenderEnv σ μ W) (tr : Transport σ μ) (outDir : String) (e : Emitter)
    (s : W × List RenderEvent) : W × List RenderEvent :=
  let r := renv.emit e tr outDir s.1
  (r.2, s.2 ++ [.emit e r.1] ++ showError r.1 e.msg)

/-- The body of the last loop of `RenderServer`: `err = svc.render(outDir)`.  The names are
keys of the map, so the lookup finds a service each time. -/
def renderStep (renv : RenderEnv σ μ W) (tr : Transport σ μ) (outDir : String)
    (acc : Option Error × W × List RenderEvent) (serviceName : String) :
    Option Error × W × List RenderEvent :=
  match tr.services.lookup serviceName with
  | some svc =>
    let r := renv.render svc outDir acc.2.1
    (r.1, r.2, acc.2.2 ++ [.render serviceName r.1])
  | none => acc

/-- The shared emitters of `RenderServer`, from `renderHTTP` to `renderJsonRPC`. -/
def renderShared (renv : RenderEnv σ μ W) (tr : Transport σ μ) (outDir : String)
    (hasTrace hasMetric : Bool) (s0 : W × List RenderEvent) : W × List RenderEvent :=
  let s1 := callShared renv tr outDir .renderHTTP s0
  let s2 := callShared renv tr outDir .renderFiber s1
  let s3 := callShared renv tr outDir .renderHeader s2
  let s4 := callShared renv tr outDir .renderErrors s3
  let s5 := callShared renv tr outDir .renderServer s4
  let s6 := callShared renv tr outDir .renderOptions s5
  let s7 := callShared renv tr outDir .renderVersion s6
  let s8 := if hasMetric = true then callShared renv tr outDir .renderMetrics s7 else s7
  let s9 := if hasTrace = true then callShared renv tr outDir .renderTracer s8 else s8
  if tr.hasJsonRPC = true then callShared renv tr outDir .renderJsonRPC s9 else s9

/-- The method `RenderServer`: the error returned, the file system afterwards and what was
done. -/
def Transport.RenderServer (renv : RenderEnv σ μ W) (tr : Transport σ μ) (outDir : String)
    (w : W) : Option Error × W × List RenderEvent :=
  let w1 := renv.cleanup tr outDir w
  let m := renv.mkdirAll outDir w1
  match m.1 with
  | some e => (some e, m.2, [.cleanup outDir, .mkdirAll outDir (some e)])
  | none =>
    let hasTrace := tr.hasTrace renv
    let hasMetric := tr.hasMetrics renv
    let s := renderShared renv tr outDir hasTrace hasMetric
      (m.2, [.cleanup outDir, .mkdirAll outDir none])
    tr.serviceKeys.foldl (renderStep renv tr outDir) (none, s.1, s.2)

/-- The calls `svc.render(outDir)` recorded in a trace, with their results, oldest first. -/
def renders : List RenderEvent → List (String × Option Error)
  | [] => []
  | .render serviceName err :: es => (serviceName, err) :: renders es
  | _ :: es => renders es

/-- The result of the last entry of a list of calls, `d` when there is none. -/
def lastOr (d : Option Error) (l : List (String × Option Error)) : Option Error :=
  match l.getLast? with
  | some p => p.2
  | none => d

/-- The result of the last entry of a list of calls, nil when there is none. -/
def lastResult (l : List (String × Option Error)) : Option Error :=
  lastOr none l

/-! ## `RenderClient` -/

/-- The emitters `RenderClient` calls once for the whole transport. -/
inductive ClientEmitter where
  | renderClientTracer | renderClientOptions | renderVersion | renderClientJsonRPC
  | renderClientError | renderClientBatch | renderClientCache
deriving DecidableEq, Repr

/-- The message `RenderClient` hands to `showError` with the result of an emitter. -/
def ClientEmitter.msg : ClientEmitter → String
  | .renderClientTracer => "renderClientTracer"
  | .renderClientOptions => "renderClientOptions"
  | .renderVersion => "renderVersion"
  | .renderClientJsonRPC => "renderClientJsonRPC"
  | .renderClientError => "renderClientError"
  | .renderClientBatch => "renderClientBatch"
  | .renderClientCache => "renderClientCache"

/-- What `RenderClient` does to the outside, in program order: what it has in common with
`RenderServer` (`cleanup`, `MkdirAll`, the log entries of `showError`), the calls of its
own emitters and the calls `svc.renderClient(outDir)`, each with the error returned. -/
inductive ClientEvent where
  | common (e : RenderEvent)
  | emit (e : ClientEmitter) (err : Option Error)
  | renderClient (serviceName : String) (err : Option Error)
deriving DecidableEq, Repr

/-- The collaborators of `RenderClient`: those of `RenderServer`, the client emitters and
the client render of a service. -/
structure ClientEnv (σ μ W : Type) extends RenderEnv σ μ W where
  /-- The client emitter methods of the transport, such as `tr.renderClientOptions outDir` -/
  emitClient : ClientEmitter → Transport σ μ → String → W → Option Error × W
  /-- Method `svc.renderClient outDir` of a service -/
  renderClient : σ → String → W → Option Error × W

/-- A statement `showError(tr.log, tr.emitter(outDir), msg)` of `RenderClient`. -/
def callClient (cenv : ClientEnv σ μ W) (tr : Transport σ μ) (outDir : String)
    (e : ClientEmitter) (s : W × List ClientEvent) : W × List ClientEvent :=
  let r := cenv.emitClient e tr outDir s.1
  (r.2, s.2 ++ [.emit e r.1] ++ (showError r.1 e.msg).map .common)

/-- The body of the loop of `RenderClient`:
`showError(tr.log, svc.renderClient(outDir), "renderHTTP")`.  The names are keys of the
map, so the lookup finds a service each time. -/
def renderClientStep (cenv : ClientEnv σ μ W) (tr : Transport σ μ) (outDir : String)
    (s : W × List ClientEvent) (serviceName : String) : W × List ClientEvent :=
  match tr.services.lookup serviceName with
  | some svc =>
    let r := cenv.renderClient svc outDir s.1
    (r.2, s.2 ++ [.renderClient serviceName r.1] ++ (showError r.1 "renderHTTP").map .common)
  | none => s

/-- The emitters `RenderClient` calls when `tr.hasJsonRPC` is set. -/
def clientJsonRPC (cenv : ClientEnv σ μ W) (tr : Transport σ μ) (outDir : String)
    (s0 : W × List ClientEvent) : W × List ClientEvent :=
  let s1 := callClient cenv tr outDir .renderVersion s0
  let s2 := callClient cenv tr outDir .renderClientJsonRPC s1
  let s3 := callClient cenv tr outDir .renderClientError s2
  let s4 := callClient cenv tr outDir .renderClientBatch s3
  callClient cenv tr outDir .renderClientCache s4

/-- The shared emitters of `RenderClient`, from `renderClientTracer` to
`renderClientCache`. -/
def clientShared (cenv : ClientEnv σ μ W) (tr : Transport σ μ) (outDir : String)
    (s0 : W × List ClientEvent) : W × List ClientEvent :=
  let s1 := if tr.hasTrace cenv.toRenderEnv = true
    then callClient cenv tr outDir .renderClientTracer s0 else s0
  let s2 := callClient cenv tr outDir .renderClientOptions s1
  if tr.hasJsonRPC = true then clientJsonRPC cenv tr outDir s2 else s2

/-- The method `RenderClient`: the error returned, the file system afterwards and what was
done.  After the test of `os.MkdirAll` nothing is assigned to `err`. -/
def Transport.RenderClient (cenv : ClientEnv σ μ W) (tr : Transport σ μ) (outDir : String)
    (w : W) : Option Error × W × List ClientEvent :=
  let w1 := cenv.cleanup tr outDir w
  let m := cenv.mkdirAll outDir w1
  match m.1 with
  | some e => (some e, m.2, [.common (.cleanup outDir), .common (.mkdirAll outDir (some e))])
  | none =>
    let s := clientShared cenv tr outDir
      (m.2, [.common (.cleanup outDir), .common (.mkdirAll outDir none)])
    let r := tr.serviceKeys.foldl (renderClientStep cenv tr outDir) s
    (none, r.1, r.2)

/-- The calls `svc.renderClient(outDir)` recorded in a trace, with their results, oldest
first. -/
def clientRenders : List ClientEvent → List (String × Option Error)
  | [] => []
  | .renderClient serviceName err :: es => (serviceName, err) :: clientRenders es
  | _ :: es => clientRenders es

/-- The results of the calls of the shared client emitters recorded in a trace. -/
def clientEmits : List ClientEvent → List (ClientEmitter × Option Error)
  | [] => []
  | .emit e err :: es => (e, err) :: clientEmits es
  | _ :: es => clientEmits es

/-! ## A concrete source tree -/

/-- A source tree: `svc/a.go` declares `Catalog` (JSON-RPC) and the bare interface `Plain`,
`svc/b.go` declares `Catalog` again (HTTP) and `Orders`, `sub` is a directory, and no other
path parses.  A service is represented by the path and the documentation it was built
from. -/
def demoEnv : Env (String × List String) Unit where
  goModPath := fun _ => ("go.mod", none)
  readFile := fun _ => .ok "module demo"
  modfileParse := fun _ => (some (), none)
  dirList := fun _ => .ok [⟨"b.go", false⟩, ⟨"sub", true⟩, ⟨"a.go", false⟩]
  abs := fun d => d
  join := fun d f => d ++ "/" ++ f
  parseFile := fun p =>
    if p = "svc/a.go" then
      .ok ⟨["@tg version=1"], [⟨"Catalog", ["@tg jsonRPC-server"]⟩, ⟨"Plain", []⟩]⟩
    else if p = "svc/b.go" then
      .ok ⟨[], [⟨"Catalog", ["@tg http-server"]⟩, ⟨"Orders", ["@tg http-server"]⟩]⟩
    else .error "syntax error"
  parseTags := fun docs => docs.map (fun d => (d, ""))
  merge := fun a b => a ++ b
  contains := fun t k => t.any (fun kv => kv.1 == "@tg " ++ k)
  newService := fun _ p i => (p, i.docs)
  svcTags := fun s => s.2.map (fun d => (d, ""))

/-- The source tree of `demoEnv` with a third file `c.go`, which does not parse. -/
def brokenEnv : Env (String × List String) Unit :=
  demoEnv.withListing [⟨"c.go", false⟩, ⟨"b.go", false⟩, ⟨"sub", true⟩, ⟨"a.go", false⟩]

/-- A transport that holds the given services, registered in the given order. -/
def transportOf (l : List (String × String)) : Transport String Unit :=
  { hasJsonRPC := false, version := "v1", modPath := "go.mod", tags := [], module := none,
    services := insertAll ∅ l }

/-- Emitters over a file system that is the list of files written: the render of the
service `broken` fails, every other call succeeds, and `renderFiber` fails when
`failShared` is set. -/
def demoRender (failShared : Bool) : RenderEnv String Unit (List String) where
  cleanup := fun _ _ _ => []
  mkdirAll := fun _ w => (none, w)
  emit := fun e _ _ w =>
    if failShared = true ∧ e = .renderFiber then (some "fiber failed", w)
    else (none, w ++ [e.msg])
  render := fun svc outDir w =>
    if svc = "broken" then (some "render failed", w) else (none, w ++ [outDir ++ "/" ++ svc])
  isSet := fun t k => t.any (fun kv => kv.1 == k)
  svcTags := fun _ => []

/-- Client emitters over the file system of `demoRender`: every shared client emitter and
every client render of a service fails when `failAll` is set, and the directory cannot be
created when `failDir` is set. -/
def demoClient (failDir failAll : Bool) : ClientEnv String Unit (List String) where
  toRenderEnv :=
    { demoRender false with
      mkdirAll := fun _ w => if failDir = true then (some "mkdir failed", w) else (none, w) }
  emitClient := fun e _ _ w =>
    if failAll = true then (some "emitter failed", w) else (none, w ++ [e.msg])
  renderClient := fun svc outDir w =>
    if failAll = true then (some "client render failed", w)
    else (none, w ++ [outDir ++ "/client-" ++ svc])

/-- A transport with the JSON-RPC flag set that holds the given services. -/
def jsonTransportOf (l : List (String × String)) : Transport String Unit :=
  { transportOf l with hasJsonRPC := true }

/-! ## Lemmas -/

theorem foldl_splitStep (l : List String) (acc : List String × List String) :
    l.foldl splitStep acc =
      (acc.1 ++ l.filter (fun s => !hasPrefix s "!"),
       acc.2 ++ (l.filter (fun s => hasPrefix s "!")).map (fun s => trimPrefix s "!")) := by
  induction l generalizing acc with
  | nil => simp
  | cons a l ih =>
    rw [List.foldl_cons, ih]
    by_cases h : hasPrefix a "!" = true <;> simp [splitStep, h]

theorem splitIfaces_fst (l : List String) :
    (splitIfaces l).1 = l.filter (fun s => !hasPrefix s "!") := by
  simp [splitIfaces, foldl_splitStep]

theorem splitIfaces_snd (l : List String) :
    (splitIfaces l).2 = (l.filter (fun s => hasPrefix s "!")).map (fun s => trimPrefix s "!") := by
  simp [splitIfaces, foldl_splitStep]

/-! ### The order on strings -/

theorem char_eq_of_toNat_eq {a b : Char} (h : a.toNat = b.toNat) : a = b := by
  apply Char.ext
  exact UInt32.ext (by simpa [Char.toNat] using h)

theorem charsLE_total (a b : List Char) : charsLE a b = true ∨ charsLE b a = true := by
  induction a generalizing b with
  | nil => simp [charsLE]
  | cons x a ih =>
    cases b with
    | nil => simp [charsLE]
    | cons y b =>
      simp only [charsLE]
      rcases Nat.lt_trichotomy x.toNat y.toNat with h | h | h
      · simp [h]
      · simp [h, ih b]
      · simp [h, Nat.lt_asymm h]

theorem charsLE_trans {a b c : List Char} (h1 : charsLE a b = true) (h2 : charsLE b c = true) :
    charsLE a c = true := by
  induction a generalizing b c with
  | nil => simp [charsLE]
  | cons x a ih =>
    cases b with
    | nil => simp [charsLE] at h1
    | cons y b =>
      cases c with
      | nil => simp [charsLE] at h2
      | cons z c =>
        simp only [charsLE] at h1 h2 ⊢
        by_cases hxy : x.toNat < y.toNat
        · by_cases hyz : y.toNat < z.toNat
          · simp [Nat.lt_trans hxy hyz]
          · by_cases hzy : z.toNat < y.toNat
            · simp [hyz, hzy] at h2
            · have : y.toNat = z.toNat := by omega
              simp [← this, hxy]
        · by_cases hyx : y.toNat < x.toNat
          · simp [hxy, hyx] at h1
          · have hxy2 : x.toNat = y.toNat := by omega
            simp only [hxy, hyx, if_false] at h1
            by_cases hyz : y.toNat < z.toNat
            · simp [hxy2, hyz]
            · by_cases hzy : z.toNat < y.toNat
              · simp [hyz, hzy] at h2
              · simp only [hyz, hzy, if_false] at h2
                simp only [hxy2, hyz, hzy, if_false]
                exact ih h1 h2

theorem charsLE_antisymm {a b : List Char} (h1 : charsLE a b = true) (h2 : charsLE b a = true) :
    a = b := by
  induction a generalizing b with
  | nil =>
    cases b with
    | nil => rfl
    | cons y b => simp [charsLE] at h2
  | cons x a ih =>
    cases b with
    | nil => simp [charsLE] at h1
    | cons y b =>
      simp only [charsLE] at h1 h2
      by_cases hxy : x.toNat < y.toNat
      · simp [hxy, Nat.lt_asymm hxy] at h2
      · by_cases hyx : y.toNat < x.toNat
        · simp [hxy, hyx] at h1
        · simp only [hxy, hyx, if_false] at h1 h2
          have hc : x = y := char_eq_of_toNat_eq (by omega)
          rw [hc, ih h1 h2]

instance strLE_total : IsTotal String (fun a b => strLE a b = true) :=
  ⟨fun a b => charsLE_total a.data b.data⟩

instance strLE_trans : IsTrans String (fun a b => strLE a b = true) :=
  ⟨fun _ _ _ h1 h2 => charsLE_trans h1 h2⟩

instance strLE_antisymm : IsAntisymm String (fun a b => strLE a b = true) :=
  ⟨fun a b h1 h2 => by
    have h := charsLE_antisymm h1 h2
    cases a; cases b; simp only at h; rw [h]⟩

instance entryLE_total : IsTotal DirEntry (fun a b => strLE a.name b.name = true) :=
  ⟨fun a b => charsLE_total a.name.data b.name.data⟩

instance entryLE_trans : IsTrans DirEntry (fun a b => strLE a.name b.name = true) :=
  ⟨fun _ _ _ h1 h2 => charsLE_trans h1 h2⟩

theorem sortStrings_sorted (l : List String) :
    (sortStrings l).Sorted (fun a b => strLE a b = true) :=
  List.sorted_insertionSort _ l

theorem sortStrings_perm (l : List String) : (sortStrings l).Perm l :=
  List.perm_insertionSort _ l

theorem sortEntries_sorted (l : List DirEntry) :
    (sortEntries l).Sorted (fun a b => strLE a.name b.name = true) :=
  List.sorted_insertionSort _ l

theorem sortEntries_perm (l : List DirEntry) : (sortEntries l).Perm l :=
  List.perm_insertionSort _ l

theorem entries_eq_map_names :
    ∀ l : List DirEntry, (∀ f ∈ l, f.isDir = false) →
      l = (l.map DirEntry.name).map (fun n => DirEntry.mk n false)
  | [], _ => rfl
  | f :: l, h => by
    have hf : f.isDir = false := h f (by simp)
    have hl := entries_eq_map_names l (fun g hg => h g (by simp [hg]))
    cases f with
    | mk n d =>
      simp only at hf
      subst hf
      simp only [List.map_cons, List.cons.injEq, true_and]
      exact hl

/-- The `.go` files of a directory, sorted by name, are the same list for all orders in
which the directory can list its entries. -/
theorem goFiles_sortEntries_eq_of_perm {l1 l2 : List DirEntry} (hp : l1.Perm l2) :
    goFiles (sortEntries l1) = goFiles (sortEntries l2) := by
  have hperm : (goFiles (sortEntries l1)).Perm (goFiles (sortEntries l2)) :=
    (((sortEntries_perm l1).trans hp).trans (sortEntries_perm l2).symm).filter _
  have hs1 : ((goFiles (sortEntries l1)).map DirEntry.name).Sorted
      (fun a b => strLE a b = true) :=
    List.pairwise_map.2 (List.Pairwise.sublist (List.filter_sublist _) (sortEntries_sorted l1))
  have hs2 : ((goFiles (sortEntries l2)).map DirEntry.name).Sorted
      (fun a b => strLE a b = true) :=
    List.pairwise_map.2 (List.Pairwise.sublist (List.filter_sublist _) (sortEntries_sorted l2))
  have hnames := List.eq_of_perm_of_sorted (hperm.map DirEntry.name) hs1 hs2
  have hfile : ∀ l : List DirEntry, ∀ f ∈ goFiles l, f.isDir = false := by
    intro l f hf
    have h := (List.mem_filter.1 hf).2
    simp only [Bool.and_eq_true, Bool.not_eq_true'] at h
    exact h.1
  rw [entries_eq_map_names _ (hfile (sortEntries l1)),
    entries_eq_map_names _ (hfile (sortEntries l2)), hnames]

/-! ### Registrations -/

theorem regs_append (a b : List (Event σ)) : regs (a ++ b) = regs a ++ regs b := by
  induction a with
  | nil => rfl
  | cons e a ih => cases e <;> simp [regs, ih]

theorem mem_regs {evs : List (Event σ)} {n : String} {s : σ} :
    (n, s) ∈ regs evs ↔ ∃ path iface, Event.newService path iface s ∈ evs ∧ iface.name = n := by
  induction evs with
  | nil => simp [regs]
  | cons e evs ih =>
    cases e <;> simp [regs, ih]
    case newService p i sv =>
      constructor
      · rintro (⟨h1, h2⟩ | ⟨path, iface, h, hn⟩)
        · exact ⟨p, i, Or.inl ⟨rfl, rfl, h2⟩, h1.symm⟩
        · exact ⟨path, iface, Or.inr h, hn⟩
      · rintro ⟨path, iface, (⟨_, h2, h3⟩ | h), hn⟩
        · subst h2; exact Or.inl ⟨hn.symm, h3⟩
        · exact Or.inr ⟨path, iface, h, hn⟩

theorem insertAll_nil (m : AList (fun _ : String => σ)) : insertAll m [] = m := rfl

theorem insertAll_append (m : AList (fun _ : String => σ)) (a b : List (String × σ)) :
    insertAll m (a ++ b) = insertAll (insertAll m a) b := by
  simp [insertAll, List.foldl_append]

theorem insertAll_concat (m : AList (fun _ : String => σ)) (a : List (String × σ))
    (p : String × σ) : insertAll m (a ++ [p]) = (insertAll m a).insert p.1 p.2 := by
  simp [insertAll, List.foldl_append]

theorem snoc_inj {α : Type} {l pre : List α} {p q : α} (h : l ++ [p] = pre ++ [q]) :
    l = pre ∧ p = q := by
  have h1 := List.append_inj' h rfl
  simpa using h1

/-- The value under `k` after a run of assignments is the one assigned last under `k`. -/
theorem lookup_insertAll_empty (l : List (String × σ)) (k : String) (s : σ) :
    (insertAll ∅ l).lookup k = some s ↔
      ∃ pre post, l = pre ++ (k, s) :: post ∧ ∀ p ∈ post, p.1 ≠ k := by
  induction l using List.reverseRecOn with
  | nil => simp [insertAll_nil]
  | append_singleton l p ih =>
    rw [insertAll_concat]
    by_cases hk : k = p.1
    · subst hk
      rw [AList.lookup_insert]
      constructor
      · intro h
        refine ⟨l, [], ?_, by simp⟩
        simp only [Option.some.injEq] at h
        rw [← h]
      · rintro ⟨pre, post, h, hp⟩
        rcases List.eq_nil_or_concat post with rfl | ⟨post1, q, rfl⟩
        · have h1 := (snoc_inj h).2
          rw [h1]
        · exfalso
          have h2 : l ++ [p] = (pre ++ (p.1, s) :: post1) ++ [q] := by
            rw [h]; simp
          have h3 := (snoc_inj h2).2
          exact hp q (by simp) (by rw [← h3])
    · rw [AList.lookup_insert_ne hk, ih]
      constructor
      · rintro ⟨pre, post, h, hp⟩
        refine ⟨pre, post ++ [p], by rw [h]; simp, ?_⟩
        intro q hq
        rcases List.mem_append.1 hq with hq | hq
        · exact hp q hq
        · simp only [List.mem_singleton] at hq
          rw [hq]; exact fun h => hk h.symm
      · rintro ⟨pre, post, h, hp⟩
        rcases List.eq_nil_or_concat post with rfl | ⟨post1, q, rfl⟩
        · exfalso
          have h1 := (snoc_inj h).2
          exact hk (by rw [h1])
        · have h2 : l ++ [p] = (pre ++ (k, s) :: post1) ++ [q] := by
            rw [h]; simp
          refine ⟨pre, post1, (snoc_inj h2).1, ?_⟩
          intro r hr
          exact hp r (by simp [hr])

/-! ### The scan, stretch by stretch -/

theorem Qualifies_mono {env : Env σ μ} {incl excl : List String} {p1 p2 : List String}
    {path : String} {iface : Interface} (hsub : ∀ x ∈ p1, x ∈ p2)
    (h : Qualifies env incl excl p1 path iface) : Qualifies env incl excl p2 path iface :=
  ⟨hsub _ h.1, h.2⟩

theorem Sound_mono {env : Env σ μ} {incl excl : List String} {p1 p2 : List String}
    {tr0 tr1 : Transport σ μ} {evs : List (Event σ)} (hsub : ∀ x ∈ p1, x ∈ p2)
    (h : Sound env incl excl p1 tr0 tr1 evs) : Sound env incl excl p2 tr0 tr1 evs where
  services := h.services
  flag := h.flag
  origin := fun path iface svc hm =>
    ⟨Qualifies_mono hsub (h.origin path iface svc hm).1, (h.origin path iface svc hm).2⟩

/-- A stretch that registers nothing and leaves services and flag alone. -/
theorem Sound_idle (env : Env σ μ) (incl excl : List String) (paths : List String)
    {tr0 tr1 : Transport σ μ} {evs : List (Event σ)} (hs : tr1.services = tr0.services)
    (hf : tr1.hasJsonRPC = tr0.hasJsonRPC)
    (hn : ∀ path iface svc, Event.newService path iface svc ∉ evs) :
    Sound env incl excl paths tr0 tr1 evs := by
  have hr : regs evs = [] := by
    cases hreg : regs evs with
    | nil => rfl
    | cons p l =>
      exfalso
      have hm : (p.1, p.2) ∈ regs evs := by rw [hreg]; simp
      obtain ⟨path, iface, hmem, _⟩ := mem_regs.1 hm
      exact hn _ _ _ hmem
  exact ⟨by rw [hr, insertAll_nil, hs], by simp [hr, hf], fun a b c h => absurd h (hn a b c)⟩

theorem Sound_trans {env : Env σ μ} {incl excl : List String} {p1 p2 : List String}
    {tr0 tr1 tr2 : Transport σ μ} {e1 e2 : List (Event σ)}
    (h1 : Sound env incl excl p1 tr0 tr1 e1) (h2 : Sound env incl excl p2 tr1 tr2 e2) :
    Sound env incl excl (p1 ++ p2) tr0 tr2 (e1 ++ e2) where
  services := by rw [regs_append, insertAll_append, ← h1.services, h2.services]
  flag := by rw [regs_append, List.any_append, h2.flag, h1.flag, Bool.or_assoc]
  origin := by
    intro path iface svc hm
    rcases List.mem_append.1 hm with hm | hm
    · exact ⟨Qualifies_mono (fun x hx => List.mem_append_left _ hx) (h1.origin _ _ _ hm).1,
        (h1.origin _ _ _ hm).2⟩
    · exact ⟨Qualifies_mono (fun x hx => List.mem_append_right _ hx) (h2.origin _ _ _ hm).1,
        (h2.origin _ _ _ hm).2⟩

theorem Complete_append {env : Env σ μ} {incl excl : List String} {p1 p2 : List String}
    {e1 e2 : List (Event σ)} (h1 : Complete env incl excl p1 e1)
    (h2 : Complete env incl excl p2 e2) : Complete env incl excl (p1 ++ p2) (e1 ++ e2) := by
  intro path iface hq
  rcases List.mem_append.1 hq.1 with hp | hp
  · obtain ⟨svc, h⟩ := h1 path iface ⟨hp, hq.2⟩
    exact ⟨svc, List.mem_append_left _ h⟩
  · obtain ⟨svc, h⟩ := h2 path iface ⟨hp, hq.2⟩
    exact ⟨svc, List.mem_append_right _ h⟩

theorem Complete_nil (env : Env σ μ) (incl excl : List String) (evs : List (Event σ)) :
    Complete env incl excl [] evs := by
  intro path iface hq
  exact absurd hq.1 (List.not_mem_nil _)

/-- One pass of the loop over the interfaces of the file at `path`. -/
theorem scanIface_spec (env : Env σ μ) (incl excl : List String) (path : String) (file : File)
    (hfile : env.parseFile path = .ok file) (iface : Interface)
    (hmem : iface ∈ file.interfaces) (tr : Transport σ μ) (t : List (Event σ)) :
    ∃ evs, (scanIface env incl excl path (tr, t) iface).2 = t ++ evs ∧
      Sound env incl excl [path] tr (scanIface env incl excl path (tr, t) iface).1 evs ∧
      (retained incl excl iface.name → (env.parseTags iface.docs).length ≠ 0 →
        ∃ svc, Event.newService path iface svc ∈ evs) := by
  unfold scanIface
  by_cases h1 : incl.length ≠ 0 ∧ ¬ incl.contains iface.name = true
  · rw [if_pos h1]
    refine ⟨[.logSkip iface.name], rfl, Sound_idle _ _ _ _ rfl rfl (by simp), ?_⟩
    intro hr _
    exact absurd (hr.1 h1.1) (by simpa using h1.2)
  · rw [if_neg h1]
    by_cases h2 : excl.length ≠ 0 ∧ excl.contains iface.name = true
    · rw [if_pos h2]
      refine ⟨[.logSkip iface.name], rfl, Sound_idle _ _ _ _ rfl rfl (by simp), ?_⟩
      intro hr _
      exact absurd (by simpa using h2.2) (hr.2 h2.1)
    · rw [if_neg h2]
      by_cases h3 : (env.parseTags iface.docs).length ≠ 0
      · rw [if_pos h3]
        refine ⟨[.newService path iface (env.newService tr path iface)], rfl, ?_, ?_⟩
        · refine ⟨?_, ?_, ?_⟩
          · by_cases hj : env.contains (env.svcTags (env.newService tr path iface))
              tagServerJsonRPC = true <;> simp [hj, regs, insertAll]
          · by_cases hj : env.contains (env.svcTags (env.newService tr path iface))
              tagServerJsonRPC = true <;> simp [hj, regs, isJsonRPC]
          · intro path1 iface1 svc hm
            simp only [List.mem_singleton, Event.newService.injEq] at hm
            obtain ⟨rfl, rfl, rfl⟩ := hm
            refine ⟨⟨by simp, ⟨file, hfile, hmem⟩, ⟨?_, ?_⟩, h3⟩, tr, rfl⟩
            · intro hi
              by_contra hc
              exact h1 ⟨hi, by simpa using hc⟩
            · intro he hc
              exact h2 ⟨he, by simpa using hc⟩
        · intro _ _
          exact ⟨env.newService tr path iface, by simp⟩
      · rw [if_neg h3]
        refine ⟨[], by simp, Sound_idle _ _ _ _ rfl rfl (by simp), ?_⟩
        intro _ ha
        exact absurd ha h3

/-- The loop over the interfaces of the file at `path`. -/
theorem foldl_scanIface_spec (env : Env σ μ) (incl excl : List String) (path : String)
    (file : File) (hfile : env.parseFile path = .ok file) (l : List Interface)
    (hl : ∀ i ∈ l, i ∈ file.interfaces) (tr : Transport σ μ) (t : List (Event σ)) :
    ∃ evs, (l.foldl (scanIface env incl excl path) (tr, t)).2 = t ++ evs ∧
      Sound env incl excl [path] tr (l.foldl (scanIface env incl excl path) (tr, t)).1 evs ∧
      (∀ i ∈ l, retained incl excl i.name → (env.parseTags i.docs).length ≠ 0 →
        ∃ svc, Event.newService path i svc ∈ evs) := by
  induction l generalizing tr t with
  | nil =>
    exact ⟨[], by simp, Sound_idle _ _ _ _ rfl rfl (by simp), by simp⟩
  | cons i l ih =>
    obtain ⟨e1, ht1, hs1, hc1⟩ :=
      scanIface_spec env incl excl path file hfile i (hl i (by simp)) tr t
    obtain ⟨e2, ht2, hs2, hc2⟩ := ih (fun j hj => hl j (by simp [hj]))
      (scanIface env incl excl path (tr, t) i).1 (scanIface env incl excl path (tr, t) i).2
    refine ⟨e1 ++ e2, ?_, ?_, ?_⟩
    · rw [List.foldl_cons, ht2, ht1, List.append_assoc]
    · rw [List.foldl_cons]
      exact Sound_mono (by simp) (Sound_trans hs1 hs2)
    · intro j hj hr ha
      rcases List.mem_cons.1 hj with rfl | hj
      · obtain ⟨svc, h⟩ := hc1 hr ha
        exact ⟨svc, List.mem_append_left _ h⟩
      · obtain ⟨svc, h⟩ := hc2 j hj hr ha
        exact ⟨svc, List.mem_append_right _ h⟩

theorem goPaths_skip (env : Env σ μ) (d : String) (f : DirEntry) (fs : List DirEntry)
    (h : f.isDir = true ∨ ¬ hasSuffix f.name ".go" = true) :
    goPaths env d (f :: fs) = goPaths env d fs := by
  simp only [goPaths]
  rw [if_pos h]

theorem goPaths_go (env : Env σ μ) (d : String) (f : DirEntry) (fs : List DirEntry)
    (h : ¬ (f.isDir = true ∨ ¬ hasSuffix f.name ".go" = true)) :
    goPaths env d (f :: fs) = env.join (env.abs d) f.name :: goPaths env (env.abs d) fs := by
  simp only [goPaths]
  rw [if_neg h]

/-- One pass of the loop over the directory entries. -/
theorem scanFile_spec (env : Env σ μ) (incl excl : List String) (st : ScanState σ μ)
    (f : DirEntry) :
    ∃ evs, (scanFile env incl excl st f).1.trace = st.trace ++ evs ∧
      Sound env incl excl (goPaths env st.svcDir [f]) st.tr
        (scanFile env incl excl st f).1.tr evs ∧
      ((scanFile env incl excl st f).2 = none →
        Complete env incl excl (goPaths env st.svcDir [f]) evs) ∧
      (∀ fs, goPaths env st.svcDir (f :: fs) =
        goPaths env st.svcDir [f] ++ goPaths env (scanFile env incl excl st f).1.svcDir fs) := by
  by_cases hskip : f.isDir = true ∨ ¬ hasSuffix f.name ".go" = true
  · have hr : scanFile env incl excl st f = (st, none) := by
      unfold scanFile; rw [if_pos hskip]
    rw [hr]
    refine ⟨[], by simp, Sound_idle _ _ _ _ rfl rfl (by simp), ?_, ?_⟩
    · intro _
      rw [goPaths_skip env _ f [] hskip]
      exact Complete_nil _ _ _ _
    · intro fs
      rw [goPaths_skip env _ f fs hskip, goPaths_skip env _ f [] hskip]
      rfl
  · have hp1 : goPaths env st.svcDir [f] = [env.join (env.abs st.svcDir) f.name] := by
      rw [goPaths_go env _ f [] hskip]; rfl
    cases hparse : env.parseFile (env.join (env.abs st.svcDir) f.name) with
    | error e =>
      have hr : scanFile env incl excl st f =
          ({ st with svcDir := env.abs st.svcDir,
                     trace := st.trace ++ [.parseFile (env.join (env.abs st.svcDir) f.name)] },
            some e) := by
        unfold scanFile; rw [if_neg hskip]; simp only [hparse]
      rw [hr]
      refine ⟨[.parseFile (env.join (env.abs st.svcDir) f.name)], rfl,
        Sound_idle _ _ _ _ rfl rfl (by simp), by simp, ?_⟩
      intro fs
      rw [goPaths_go env _ f fs hskip, hp1]
      rfl
    | ok file =>
      obtain ⟨evs, ht, hs, hc⟩ := foldl_scanIface_spec env incl excl
        (env.join (env.abs st.svcDir) f.name) file hparse file.interfaces (fun _ h => h)
        { st.tr with tags := env.merge st.tr.tags (env.parseTags file.docs) }
        (st.trace ++ [.parseFile (env.join (env.abs st.svcDir) f.name)])
      have hr : scanFile env incl excl st f =
          ({ tr := (file.interfaces.foldl
                (scanIface env incl excl (env.join (env.abs st.svcDir) f.name))
                ({ st.tr with tags := env.merge st.tr.tags (env.parseTags file.docs) },
                  st.trace ++ [.parseFile (env.join (env.abs st.svcDir) f.name)])).1,
             svcDir := env.abs st.svcDir,
             trace := (file.interfaces.foldl
                (scanIface env incl excl (env.join (env.abs st.svcDir) f.name))
                ({ st.tr with tags := env.merge st.tr.tags (env.parseTags file.docs) },
                  st.trace ++ [.parseFile (env.join (env.abs st.svcDir) f.name)])).2 },
            none) := by
        unfold scanFile; rw [if_neg hskip]; simp only [hparse]
      rw [hr, hp1]
      refine ⟨[.parseFile (env.join (env.abs st.svcDir) f.name)] ++ evs, ?_, ?_, ?_, ?_⟩
      · simp only [ht, List.append_assoc]
      · have h0 : Sound env incl excl ([] : List String) st.tr
            { st.tr with tags := env.merge st.tr.tags (env.parseTags file.docs) }
            [.parseFile (env.join (env.abs st.svcDir) f.name)] :=
          Sound_idle _ _ _ _ rfl rfl (by simp)
        exact Sound_mono (by simp) (Sound_trans h0 hs)
      · intro _ path iface hq
        have hpath : path = env.join (env.abs st.svcDir) f.name := by simpa using hq.1
        subst hpath
        obtain ⟨file1, hf1, hm1⟩ := hq.2.1
        rw [hparse] at hf1
        cases hf1
        obtain ⟨svc, h⟩ := hc iface hm1 hq.2.2.1 hq.2.2.2
        exact ⟨svc, List.mem_append_right _ h⟩
      · intro fs
        rw [goPaths_go env _ f fs hskip]
        rfl

/-- The loop over the directory entries. -/
theorem scanFiles_spec (env : Env σ μ) (incl excl : List String) (files : List DirEntry)
    (st : ScanState σ μ) :
    ∃ evs, (scanFiles env incl excl files st).1.trace = st.trace ++ evs ∧
      Sound env incl excl (goPaths env st.svcDir files) st.tr
        (scanFiles env incl excl files st).1.tr evs ∧
      ((scanFiles env incl excl files st).2 = none →
        Complete env incl excl (goPaths env st.svcDir files) evs) := by
  induction files generalizing st with
  | nil =>
    exact ⟨[], by simp [scanFiles], Sound_idle _ _ _ _ rfl rfl (by simp),
      fun _ => Complete_nil _ _ _ _⟩
  | cons f fs ih =>
    obtain ⟨e1, ht1, hs1, hc1, hg⟩ := scanFile_spec env incl excl st f
    cases hres : scanFile env incl excl st f with
    | mk st1 oe =>
      rw [hres] at ht1 hs1 hc1 hg
      cases oe with
      | some e =>
        have hr : scanFiles env incl excl (f :: fs) st = (st1, some e) := by
          simp only [scanFiles, hres]
        rw [hr]
        refine ⟨e1, ht1, Sound_mono ?_ hs1, by simp⟩
        intro x hx
        rw [hg fs]
        exact List.mem_append_left _ hx
      | none =>
        have hr : scanFiles env incl excl (f :: fs) st = scanFiles env incl excl fs st1 := by
          simp only [scanFiles, hres]
        obtain ⟨e2, ht2, hs2, hc2⟩ := ih st1
        rw [hr, hg fs]
        refine ⟨e1 ++ e2, ?_, Sound_trans hs1 hs2, ?_⟩
        · rw [ht2, ht1, List.append_assoc]
        · intro hn
          exact Complete_append (hc1 rfl) (hc2 hn)

/-! ### The whole build -/

theorem goMod_fst_services (env : Env σ μ) (tr : Transport σ μ) (d : String) :
    (goMod env tr d).1.services = tr.services ∧
    (goMod env tr d).1.hasJsonRPC = tr.hasJsonRPC ∧
    ∀ path iface svc, Event.newService path iface svc ∉ (goMod env tr d).2.2 := by
  unfold goMod
  cases h1 : (env.goModPath d).2 with
  | some e => simp [h1]
  | none =>
    cases h2 : env.readFile (env.goModPath d).1 with
    | error e => simp [h1, h2]
    | ok bytes => simp [h1, h2]

theorem goMod_idle (env : Env σ μ) (incl excl : List String) (paths : List String)
    (tr : Transport σ μ) (d : String) :
    Sound env incl excl paths tr (goMod env tr d).1 (goMod env tr d).2.2 :=
  Sound_idle _ _ _ _ (goMod_fst_services env tr d).1 (goMod_fst_services env tr d).2.1
    (goMod_fst_services env tr d).2.2

theorem NewTransport_conflict (env : Env σ μ) (version svcDir : String) (ifaces : List String)
    (hc : conflict ifaces) :
    NewTransport env version svcDir ifaces =
      { tr := emptyTransport version,
        err := some "include and exclude cannot be set at same time", trace := [] } := by
  unfold NewTransport
  unfold conflict at hc
  simp only []
  rw [if_pos hc]

theorem NewTransport_goMod_error (env : Env σ μ) (version svcDir : String)
    (ifaces : List String) (hc : ¬ conflict ifaces) (tr1 : Transport σ μ) (e : Error)
    (t1 : List (Event σ)) (hgm : goMod env (emptyTransport version) svcDir = (tr1, some e, t1)) :
    NewTransport env version svcDir ifaces = { tr := tr1, err := some e, trace := t1 } := by
  unfold NewTransport
  unfold conflict at hc
  simp only []
  rw [if_neg hc, hgm]

theorem NewTransport_readDir_error (env : Env σ μ) (version svcDir : String)
    (ifaces : List String) (hc : ¬ conflict ifaces) (tr1 : Transport σ μ)
    (t1 : List (Event σ)) (hgm : goMod env (emptyTransport version) svcDir = (tr1, none, t1))
    (e : Error) (hrd : ReadDir env svcDir = .error e) :
    NewTransport env version svcDir ifaces =
      { tr := tr1, err := some e, trace := t1 ++ [.readDir svcDir] } := by
  unfold NewTransport
  unfold conflict at hc
  simp only []
  rw [if_neg hc, hgm]
  simp only [hrd]

theorem NewTransport_scan (env : Env σ μ) (version svcDir : String)
    (ifaces : List String) (hc : ¬ conflict ifaces) (tr1 : Transport σ μ)
    (t1 : List (Event σ)) (hgm : goMod env (emptyTransport version) svcDir = (tr1, none, t1))
    (files : List DirEntry) (hrd : ReadDir env svcDir = .ok files) :
    NewTransport env version svcDir ifaces =
      { tr := (scanFiles env (splitIfaces ifaces).1 (splitIfaces ifaces).2 files
          { tr := tr1, svcDir := svcDir, trace := t1 ++ [.readDir svcDir] }).1.tr,
        err := (scanFiles env (splitIfaces ifaces).1 (splitIfaces ifaces).2 files
          { tr := tr1, svcDir := svcDir, trace := t1 ++ [.readDir svcDir] }).2,
        trace := (scanFiles env (splitIfaces ifaces).1 (splitIfaces ifaces).2 files
          { tr := tr1, svcDir := svcDir, trace := t1 ++ [.readDir svcDir] }).1.trace } := by
  unfold NewTransport
  unfold conflict at hc
  simp only []
  rw [if_neg hc, hgm]
  simp only [hrd]

theorem services_emptyTransport (version : String) :
    (emptyTransport version : Transport σ μ).services = ∅ := rfl

/-- The services and the flag of the transport returned by `NewTransport` are those the
registrations of the trace produce from the empty transport, and each registered service
comes from a qualifying interface of a scanned file. -/
theorem NewTransport_sound (env : Env σ μ) (version svcDir : String) (ifaces : List String) :
    Sound env (splitIfaces ifaces).1 (splitIfaces ifaces).2 (scanPaths env svcDir)
      (emptyTransport version) (NewTransport env version svcDir ifaces).tr
      (NewTransport env version svcDir ifaces).trace := by
  by_cases hc : conflict ifaces
  · rw [NewTransport_conflict env version svcDir ifaces hc]
    exact Sound_idle _ _ _ _ rfl rfl (by simp)
  · have hg := goMod_idle env (splitIfaces ifaces).1 (splitIfaces ifaces).2 ([] : List String)
      (emptyTransport version) svcDir
    rcases hgm : goMod env (emptyTransport version) svcDir with ⟨tr1, oe, t1⟩
    rw [hgm] at hg
    cases oe with
    | some e =>
      rw [NewTransport_goMod_error env version svcDir ifaces hc tr1 e t1 hgm]
      exact Sound_mono (by simp) hg
    | none =>
      have h2 : Sound env (splitIfaces ifaces).1 (splitIfaces ifaces).2 ([] : List String)
          tr1 tr1 [Event.readDir svcDir] := Sound_idle _ _ _ _ rfl rfl (by simp)
      cases hrd : ReadDir env svcDir with
      | error e =>
        rw [NewTransport_readDir_error env version svcDir ifaces hc tr1 t1 hgm e hrd]
        exact Sound_mono (by simp) (Sound_trans hg h2)
      | ok files =>
        rw [NewTransport_scan env version svcDir ifaces hc tr1 t1 hgm files hrd]
        obtain ⟨evs, ht, hs, _⟩ := scanFiles_spec env (splitIfaces ifaces).1
          (splitIfaces ifaces).2 files
          { tr := tr1, svcDir := svcDir, trace := t1 ++ [.readDir svcDir] }
        simp only [ht]
        have h3 := Sound_trans (Sound_trans hg h2) hs
        simp only [scanPaths, hrd]
        simpa using h3

theorem scanFiles_withListing (env : Env σ μ) (l : List DirEntry) (incl excl : List String)
    (files : List DirEntry) (st : ScanState σ μ) :
    scanFiles (env.withListing l) incl excl files st = scanFiles env incl excl files st := by
  induction files generalizing st with
  | nil => rfl
  | cons f fs ih =>
    have h1 : scanFile (env.withListing l) incl excl st f = scanFile env incl excl st f := rfl
    simp only [scanFiles, h1]
    rcases scanFile env incl excl st f with ⟨st1, oe⟩
    cases oe with
    | some e => rfl
    | none => exact ih st1

theorem goPaths_withListing (env : Env σ μ) (l : List DirEntry) (d : String)
    (files : List DirEntry) : goPaths (env.withListing l) d files = goPaths env d files := by
  induction files generalizing d with
  | nil => rfl
  | cons f fs ih =>
    by_cases hskip : f.isDir = true ∨ ¬ hasSuffix f.name ".go" = true
    · rw [goPaths_skip _ _ _ _ hskip, goPaths_skip _ _ _ _ hskip, ih]
    · rw [goPaths_go _ _ _ _ hskip, goPaths_go _ _ _ _ hskip, ih]
      rfl

theorem ReadDir_withListing (env : Env σ μ) (l : List DirEntry) (d : String) :
    ReadDir (env.withListing l) d = .ok (sortEntries l) := rfl

theorem goMod_withListing (env : Env σ μ) (l : List DirEntry) (tr : Transport σ μ)
    (d : String) : goMod (env.withListing l) tr d = goMod env tr d := rfl

/-- The build over a directory that lists `l` is the scan of `sortEntries l`. -/
theorem NewTransport_withListing (env : Env σ μ) (l : List DirEntry) (version svcDir : String)
    (ifaces : List String) (hc : ¬ conflict ifaces) (tr1 : Transport σ μ)
    (t1 : List (Event σ)) (hgm : goMod env (emptyTransport version) svcDir = (tr1, none, t1)) :
    NewTransport (env.withListing l) version svcDir ifaces =
      { tr := (scanFiles env (splitIfaces ifaces).1 (splitIfaces ifaces).2 (sortEntries l)
          { tr := tr1, svcDir := svcDir, trace := t1 ++ [.readDir svcDir] }).1.tr,
        err := (scanFiles env (splitIfaces ifaces).1 (splitIfaces ifaces).2 (sortEntries l)
          { tr := tr1, svcDir := svcDir, trace := t1 ++ [.readDir svcDir] }).2,
        trace := (scanFiles env (splitIfaces ifaces).1 (splitIfaces ifaces).2 (sortEntries l)
          { tr := tr1, svcDir := svcDir, trace := t1 ++ [.readDir svcDir] }).1.trace } := by
  rw [NewTransport_scan (env.withListing l) version svcDir ifaces hc tr1 t1
    (by rw [goMod_withListing]; exact hgm) (sortEntries l) (ReadDir_withListing env l svcDir)]
  rw [scanFiles_withListing]

theorem scanFile_goFile (env : Env σ μ) (incl excl : List String) (st : ScanState σ μ)
    (f : DirEntry) (h : (!f.isDir && hasSuffix f.name ".go") = false) :
    scanFile env incl excl st f = (st, none) := by
  unfold scanFile
  rw [if_pos]
  cases hd : f.isDir with
  | true => exact Or.inl rfl
  | false =>
    right
    rw [hd] at h
    simpa using h

/-- The scan of a list of entries is the scan of its `.go` files. -/
theorem scanFiles_goFiles (env : Env σ μ) (incl excl : List String) (l : List DirEntry)
    (st : ScanState σ μ) :
    scanFiles env incl excl l st = scanFiles env incl excl (goFiles l) st := by
  induction l generalizing st with
  | nil => rfl
  | cons f fs ih =>
    cases hgo : (!f.isDir && hasSuffix f.name ".go") with
    | false =>
      have h1 : goFiles (f :: fs) = goFiles fs := by
        simp only [goFiles, List.filter_cons, hgo]
        rfl
      rw [h1, ← ih st]
      simp only [scanFiles, scanFile_goFile env incl excl st f hgo]
    | true =>
      have h1 : goFiles (f :: fs) = f :: goFiles fs := by
        simp only [goFiles, List.filter_cons, hgo]
        rfl
      rw [h1]
      simp only [scanFiles]
      rcases scanFile env incl excl st f with ⟨st1, oe⟩
      cases oe with
      | some e => rfl
      | none => exact ih st1

theorem NewTransport_withListing_congr (env : Env σ μ) (l1 l2 : List DirEntry)
    (version svcDir : String) (ifaces : List String)
    (h : goFiles (sortEntries l1) = goFiles (sortEntries l2)) :
    NewTransport (env.withListing l1) version svcDir ifaces =
      NewTransport (env.withListing l2) version svcDir ifaces := by
  by_cases hc : conflict ifaces
  · rw [NewTransport_conflict _ version svcDir ifaces hc,
      NewTransport_conflict _ version svcDir ifaces hc]
  · rcases hgm : goMod env (emptyTransport version) svcDir with ⟨tr1, oe, t1⟩
    cases oe with
    | some e =>
      rw [NewTransport_goMod_error (env.withListing l1) version svcDir ifaces hc tr1 e t1
          (by rw [goMod_withListing]; exact hgm),
        NewTransport_goMod_error (env.withListing l2) version svcDir ifaces hc tr1 e t1
          (by rw [goMod_withListing]; exact hgm)]
    | none =>
      rw [NewTransport_withListing env l1 version svcDir ifaces hc tr1 t1 hgm,
        NewTransport_withListing env l2 version svcDir ifaces hc tr1 t1 hgm,
        scanFiles_goFiles env _ _ (sortEntries l1), scanFiles_goFiles env _ _ (sortEntries l2), h]

/-! ### When a scan succeeds -/

theorem scanFile_skip (env : Env σ μ) (incl excl : List String) (st : ScanState σ μ)
    (f : DirEntry) (h : f.isDir = true ∨ ¬ hasSuffix f.name ".go" = true) :
    scanFile env incl excl st f = (st, none) := by
  unfold scanFile; rw [if_pos h]

theorem scanFile_parse_error (env : Env σ μ) (incl excl : List String) (st : ScanState σ μ)
    (f : DirEntry) (h : ¬ (f.isDir = true ∨ ¬ hasSuffix f.name ".go" = true)) (e : Error)
    (hparse : env.parseFile (env.join (env.abs st.svcDir) f.name) = .error e) :
    (scanFile env incl excl st f).2 = some e := by
  unfold scanFile; rw [if_neg h]; simp only [hparse]

theorem scanFile_parse_ok (env : Env σ μ) (incl excl : List String) (st : ScanState σ μ)
    (f : DirEntry) (h : ¬ (f.isDir = true ∨ ¬ hasSuffix f.name ".go" = true)) (file : File)
    (hparse : env.parseFile (env.join (env.abs st.svcDir) f.name) = .ok file) :
    (scanFile env incl excl st f).2 = none ∧
    (scanFile env incl excl st f).1.svcDir = env.abs st.svcDir := by
  unfold scanFile; rw [if_neg h]; simp only [hparse, and_self]

/-- The scan ends without error exactly when every `.go` file parses. -/
theorem scanFiles_ok_iff (env : Env σ μ) (incl excl : List String) (files : List DirEntry)
    (st : ScanState σ μ) :
    (scanFiles env incl excl files st).2 = none ↔
      ∀ path ∈ goPaths env st.svcDir files, ∃ file, env.parseFile path = .ok file := by
  induction files generalizing st with
  | nil => simp [scanFiles, goPaths]
  | cons f fs ih =>
    by_cases hskip : f.isDir = true ∨ ¬ hasSuffix f.name ".go" = true
    · have hr : scanFiles env incl excl (f :: fs) st = scanFiles env incl excl fs st := by
        simp only [scanFiles, scanFile_skip env incl excl st f hskip]
      rw [hr, goPaths_skip env _ f fs hskip, ih]
    · rw [goPaths_go env _ f fs hskip]
      cases hparse : env.parseFile (env.join (env.abs st.svcDir) f.name) with
      | error e =>
        have h1 := scanFile_parse_error env incl excl st f hskip e hparse
        have hr : (scanFiles env incl excl (f :: fs) st).2 = some e := by
          rcases hres : scanFile env incl excl st f with ⟨st1, oe⟩
          rw [hres] at h1
          simp only at h1
          subst h1
          simp only [scanFiles, hres]
        rw [hr]
        constructor
        · intro h; simp at h
        · intro h
          obtain ⟨file, hf⟩ := h _ (List.mem_cons_self _ _)
          rw [hparse] at hf
          cases hf
      | ok file =>
        obtain ⟨h1, h2⟩ := scanFile_parse_ok env incl excl st f hskip file hparse
        rcases hres : scanFile env incl excl st f with ⟨st1, oe⟩
        rw [hres] at h1 h2
        simp only at h1 h2
        subst h1
        have hr : scanFiles env incl excl (f :: fs) st = scanFiles env incl excl fs st1 := by
          simp only [scanFiles, hres]
        rw [hr, ih st1, h2]
        constructor
        · intro h path hp
          rcases List.mem_cons.1 hp with rfl | hp
          · exact ⟨file, hparse⟩
          · exact h path hp
        · intro h path hp
          exact h path (List.mem_cons_of_mem _ hp)

/-! ### Where a scan stops -/

theorem scanFile_error (env : Env σ μ) (incl excl : List String) (st st1 : ScanState σ μ)
    (f : DirEntry) (e : Error) (h : scanFile env incl excl st f = (st1, some e)) :
    ¬ (f.isDir = true ∨ ¬ hasSuffix f.name ".go" = true) ∧
    env.parseFile (env.join (env.abs st.svcDir) f.name) = .error e ∧ st1.tr = st.tr := by
  by_cases hskip : f.isDir = true ∨ ¬ hasSuffix f.name ".go" = true
  · unfold scanFile at h
    rw [if_pos hskip] at h
    simp at h
  · unfold scanFile at h
    rw [if_neg hskip] at h
    cases hparse : env.parseFile (env.join (env.abs st.svcDir) f.name) with
    | error e1 =>
      simp only [hparse, Prod.mk.injEq, Option.some.injEq] at h
      refine ⟨hskip, by rw [h.2], ?_⟩
      rw [← h.1]
    | ok file =>
      simp only [hparse, Prod.mk.injEq] at h
      exact absurd h.2 (by simp)

theorem goPaths_append_scan (env : Env σ μ) (incl excl : List String) (pre fs : List DirEntry)
    (st st1 : ScanState σ μ) (h : scanFiles env incl excl pre st = (st1, none)) :
    goPaths env st.svcDir (pre ++ fs) = goPaths env st.svcDir pre ++ goPaths env st1.svcDir fs := by
  induction pre generalizing st with
  | nil =>
    simp only [scanFiles, Prod.mk.injEq, and_true] at h
    subst h
    simp [goPaths]
  | cons f pre ih =>
    obtain ⟨_, _, _, _, hg⟩ := scanFile_spec env incl excl st f
    cases hres : scanFile env incl excl st f with
    | mk st2 oe =>
      rw [hres] at hg
      cases oe with
      | some e => simp [scanFiles, hres] at h
      | none =>
        have h2 : scanFiles env incl excl pre st2 = (st1, none) := by
          simpa [scanFiles, hres] using h
        rw [List.cons_append, hg (pre ++ fs), hg pre, ih st2 h2, List.append_assoc]

/-- A scan that ends with an error has scanned a prefix of the entries without error, and
then met a `.go` file that does not parse; the transport is the one after the prefix. -/
theorem scanFiles_error (env : Env σ μ) (incl excl : List String) (files : List DirEntry)
    (st st2 : ScanState σ μ) (e : Error)
    (h : scanFiles env incl excl files st = (st2, some e)) :
    ∃ pre f post st1 path, files = pre ++ f :: post ∧
      scanFiles env incl excl pre st = (st1, none) ∧ st2.tr = st1.tr ∧
      goPaths env st.svcDir (pre ++ [f]) = goPaths env st.svcDir pre ++ [path] ∧
      env.parseFile path = .error e := by
  induction files generalizing st with
  | nil => simp [scanFiles] at h
  | cons f fs ih =>
    cases hres : scanFile env incl excl st f with
    | mk st1 oe =>
      cases oe with
      | some e1 =>
        have h2 : st1 = st2 ∧ e1 = e := by simpa [scanFiles, hres] using h
        obtain ⟨rfl, rfl⟩ := h2
        obtain ⟨hskip, hparse, htr⟩ := scanFile_error env incl excl st st1 f e1 hres
        refine ⟨[], f, fs, st, env.join (env.abs st.svcDir) f.name, rfl, rfl, htr, ?_, hparse⟩
        rw [List.nil_append, goPaths_go env _ f [] hskip]
        rfl
      | none =>
        have h2 : scanFiles env incl excl fs st1 = (st2, some e) := by
          simpa [scanFiles, hres] using h
        obtain ⟨pre, g, post, st3, path, hfs, hpre, htr, hgp, hparse⟩ := ih st1 h2
        have hpre2 : scanFiles env incl excl (f :: pre) st = (st3, none) := by
          simp only [scanFiles, hres]; exact hpre
        obtain ⟨_, _, _, _, hg⟩ := scanFile_spec env incl excl st f
        rw [hres] at hg
        refine ⟨f :: pre, g, post, st3, path, by rw [hfs]; rfl, hpre2, htr, ?_, hparse⟩
        rw [List.cons_append, hg (pre ++ [g]), hg pre, hgp, List.append_assoc]

theorem sortEntries_prefix {l pre post : List DirEntry} (h : sortEntries l = pre ++ post) :
    sortEntries pre = pre := by
  apply List.Sorted.insertionSort_eq
  have hs := sortEntries_sorted l
  rw [h] at hs
  exact List.Pairwise.sublist (List.sublist_append_left pre post) hs

/-! ### `serviceKeys` and the render loop -/

theorem mem_serviceKeys (tr : Transport σ μ) (k : String) :
    k ∈ tr.serviceKeys ↔ k ∈ tr.services.keys :=
  (sortStrings_perm tr.services.keys).mem_iff

theorem serviceKeys_nodup (tr : Transport σ μ) : tr.serviceKeys.Nodup :=
  ((sortStrings_perm tr.services.keys).nodup_iff).2 tr.services.keys_nodup

theorem renders_append (a b : List RenderEvent) : renders (a ++ b) = renders a ++ renders b := by
  induction a with
  | nil => rfl
  | cons e a ih => cases e <;> simp [renders, ih]

theorem renders_showError (err : Option Error) (msg : String) :
    renders (showError err msg) = [] := by
  cases err <;> rfl

theorem renders_callShared (renv : RenderEnv σ μ W) (tr : Transport σ μ) (outDir : String)
    (e : Emitter) (s : W × List RenderEvent) :
    renders (callShared renv tr outDir e s).2 = renders s.2 := by
  simp [callShared, renders_append, renders_showError, renders]

theorem renders_renderShared (renv : RenderEnv σ μ W) (tr : Transport σ μ) (outDir : String)
    (ht hm : Bool) (s : W × List RenderEvent) :
    renders (renderShared renv tr outDir ht hm s).2 = renders s.2 := by
  unfold renderShared
  simp only []
  split_ifs <;> simp only [renders_callShared]

theorem lastOr_cons (d : Option Error) (p : String × Option Error)
    (l : List (String × Option Error)) : lastOr d (p :: l) = lastOr p.2 l := by
  cases l with
  | nil => rfl
  | cons q l =>
    have h : (q :: l).getLast? = some ((q :: l).getLast (by simp)) :=
      List.getLast?_eq_getLast _ _
    simp only [lastOr, List.getLast?_cons_cons, h]

/-- The last loop of `RenderServer` over names that are keys of the map: one call of
`svc.render` for each name, in order, each on the service held under the name, and the
error left in `err` is the result of the last call. -/
theorem foldl_renderStep (renv : RenderEnv σ μ W) (tr : Transport σ μ) (outDir : String)
    (l : List String) (hl : ∀ n ∈ l, n ∈ tr.services.keys)
    (acc : Option Error × W × List RenderEvent) :
    ∃ L, renders (l.foldl (renderStep renv tr outDir) acc).2.2 = renders acc.2.2 ++ L ∧
      L.map Prod.fst = l ∧
      (l.foldl (renderStep renv tr outDir) acc).1 = lastOr acc.1 L ∧
      ∀ p ∈ L, ∃ svc w1, tr.services.lookup p.1 = some svc ∧
        p.2 = (renv.render svc outDir w1).1 := by
  induction l generalizing acc with
  | nil => exact ⟨[], by simp, rfl, rfl, by simp⟩
  | cons n l ih =>
    have hn : n ∈ tr.services := AList.mem_keys.2 (hl n (by simp))
    obtain ⟨svc, hsvc⟩ := Option.isSome_iff_exists.1 (AList.lookup_isSome.2 hn)
    have hstep : renderStep renv tr outDir acc n =
        ((renv.render svc outDir acc.2.1).1, (renv.render svc outDir acc.2.1).2,
          acc.2.2 ++ [.render n (renv.render svc outDir acc.2.1).1]) := by
      simp only [renderStep, hsvc]
    obtain ⟨L, h1, h2, h3, h4⟩ := ih (fun m hm => hl m (by simp [hm]))
      (renderStep renv tr outDir acc n)
    refine ⟨(n, (renv.render svc outDir acc.2.1).1) :: L, ?_, ?_, ?_, ?_⟩
    · rw [List.foldl_cons, h1, hstep]
      simp [renders_append, renders]
    · simp [h2]
    · rw [List.foldl_cons, h3, hstep, lastOr_cons]
    · intro p hp
      rcases List.mem_cons.1 hp with rfl | hp
      · exact ⟨svc, acc.2.1, hsvc, rfl⟩
      · exact h4 p hp

theorem RenderServer_ok (renv : RenderEnv σ μ W) (tr : Transport σ μ) (outDir : String)
    (w : W) (hmk : (renv.mkdirAll outDir (renv.cleanup tr outDir w)).1 = none) :
    tr.RenderServer renv outDir w =
      tr.serviceKeys.foldl (renderStep renv tr outDir)
        (none,
          (renderShared renv tr outDir (tr.hasTrace renv) (tr.hasMetrics renv)
            ((renv.mkdirAll outDir (renv.cleanup tr outDir w)).2,
              [.cleanup outDir, .mkdirAll outDir none])).1,
          (renderShared renv tr outDir (tr.hasTrace renv) (tr.hasMetrics renv)
            ((renv.mkdirAll outDir (renv.cleanup tr outDir w)).2,
              [.cleanup outDir, .mkdirAll outDir none])).2) := by
  unfold Transport.RenderServer
  simp only [hmk]

/-! ### From the services map back to the scan -/

/-- A service held by the transport that `NewTransport` returns was registered by a call of
`newService` on an interface of that name. -/
theorem NewTransport_lookup_event (env : Env σ μ) (version svcDir : String)
    (ifaces : List String) (name : String) (svc : σ)
    (h : (NewTransport env version svcDir ifaces).tr.services.lookup name = some svc) :
    ∃ path iface, Event.newService path iface svc ∈
      (NewTransport env version svcDir ifaces).trace ∧ iface.name = name := by
  have hs := (NewTransport_sound env version svcDir ifaces).services
  rw [services_emptyTransport] at hs
  rw [hs, lookup_insertAll_empty] at h
  obtain ⟨pre, post, hreg, _⟩ := h
  exact mem_regs.1 (by rw [hreg]; simp)

theorem lookup_of_mem_keys {m : AList (fun _ : String => σ)} {k : String} (h : k ∈ m.keys) :
    ∃ s, m.lookup k = some s :=
  Option.isSome_iff_exists.1 (AList.lookup_isSome.2 (AList.mem_keys.2 h))

theorem mem_keys_of_lookup {m : AList (fun _ : String => σ)} {k : String} {s : σ}
    (h : m.lookup k = some s) : k ∈ m.keys :=
  AList.mem_keys.1 (AList.lookup_isSome.1 (by rw [h]; rfl))

/-! ### The leading `!` of an argument -/

theorem bang_data : ("!" : String).data = ['!'] := rfl

theorem hasPrefix_bang_iff (s : String) :
    hasPrefix s "!" = true ↔ ∃ rest, s.data = '!' :: rest := by
  unfold hasPrefix
  rw [bang_data]
  cases hd : s.data with
  | nil => simp [List.isPrefixOf]
  | cons c rest =>
    simp only [List.isPrefixOf, Bool.and_true, beq_iff_eq, List.cons.injEq, exists_and_left,
      exists_eq', and_true]
    exact eq_comm

/-- An argument that starts with `!` is `!` followed by what `strings.TrimPrefix` keeps. -/
theorem bang_append_trimPrefix (s : String) (h : hasPrefix s "!" = true) :
    "!" ++ trimPrefix s "!" = s := by
  obtain ⟨rest, hrest⟩ := (hasPrefix_bang_iff s).1 h
  apply String.ext
  simp [trimPrefix, h, String.data_append, bang_data, hrest]

/-- From `!` followed by `t`, `strings.TrimPrefix` keeps `t`. -/
theorem trimPrefix_bang_append (t : String) : trimPrefix ("!" ++ t) "!" = t := by
  have h : hasPrefix ("!" ++ t) "!" = true :=
    (hasPrefix_bang_iff _).2 ⟨t.data, by simp [String.data_append, bang_data]⟩
  apply String.ext
  simp [trimPrefix, h, String.data_append, bang_data]

/-! ### The loop of `RenderClient` -/

theorem clientRenders_append (a b : List ClientEvent) :
    clientRenders (a ++ b) = clientRenders a ++ clientRenders b := by
  induction a with
  | nil => rfl
  | cons e a ih => cases e <;> simp [clientRenders, ih]

theorem clientRenders_common (l : List RenderEvent) :
    clientRenders (l.map ClientEvent.common) = [] := by
  induction l with
  | nil => rfl
  | cons e l ih => simp [clientRenders, ih]

theorem clientRenders_callClient (cenv : ClientEnv σ μ W) (tr : Transport σ μ)
    (outDir : String) (e : ClientEmitter) (s : W × List ClientEvent) :
    clientRenders (callClient cenv tr outDir e s).2 = clientRenders s.2 := by
  simp [callClient, clientRenders_append, clientRenders_common, clientRenders]

theorem clientRenders_clientShared (cenv : ClientEnv σ μ W) (tr : Transport σ μ)
    (outDir : String) (s : W × List ClientEvent) :
    clientRenders (clientShared cenv tr outDir s).2 = clientRenders s.2 := by
  unfold clientShared clientJsonRPC
  simp only []
  split_ifs <;> simp only [clientRenders_callClient]

/-- The loop of `RenderClient` over names that are keys of the map: one call of
`svc.renderClient` for each name, in order, each on the service held under the name. -/
theorem foldl_renderClientStep (cenv : ClientEnv σ μ W) (tr : Transport σ μ)
    (outDir : String) (l : List String) (hl : ∀ n ∈ l, n ∈ tr.services.keys)
    (s : W × List ClientEvent) :
    ∃ L, clientRenders (l.foldl (renderClientStep cenv tr outDir) s).2 =
        clientRenders s.2 ++ L ∧
      L.map Prod.fst = l ∧
      ∀ p ∈ L, ∃ svc w1, tr.services.lookup p.1 = some svc ∧
        p.2 = (cenv.renderClient svc outDir w1).1 := by
  induction l generalizing s with
  | nil => exact ⟨[], by simp, rfl, by simp⟩
  | cons n l ih =>
    obtain ⟨svc, hsvc⟩ := lookup_of_mem_keys (hl n (by simp))
    have hstep : clientRenders (renderClientStep cenv tr outDir s n).2 =
        clientRenders s.2 ++ [(n, (cenv.renderClient svc outDir s.1).1)] := by
      simp [renderClientStep, hsvc, clientRenders_append, clientRenders_common, clientRenders]
    obtain ⟨L, h1, h2, h3⟩ := ih (fun m hm => hl m (by simp [hm]))
      (renderClientStep cenv tr outDir s n)
    refine ⟨(n, (cenv.renderClient svc outDir s.1).1) :: L, ?_, ?_, ?_⟩
    · rw [List.foldl_cons, h1, hstep]
      simp
    · simp [h2]
    · intro p hp
      rcases List.mem_cons.1 hp with rfl | hp
      · exact ⟨svc, s.1, hsvc, rfl⟩
      · exact h3 p hp

theorem RenderClient_mkdir_error (cenv : ClientEnv σ μ W) (tr : Transport σ μ)
    (outDir : String) (w : W) (e : Error)
    (hmk : (cenv.mkdirAll outDir (cenv.cleanup tr outDir w)).1 = some e) :
    (tr.RenderClient cenv outDir w).1 = some e := by
  unfold Transport.RenderClient
  simp only [hmk]

theorem RenderClient_ok (cenv : ClientEnv σ μ W) (tr : Transport σ μ) (outDir : String)
    (w : W) (hmk : (cenv.mkdirAll outDir (cenv.cleanup tr outDir w)).1 = none) :
    tr.RenderClient cenv outDir w =
      (none,
        (tr.serviceKeys.foldl (renderClientStep cenv tr outDir)
          (clientShared cenv tr outDir
            ((cenv.mkdirAll outDir (cenv.cleanup tr outDir w)).2,
              [.common (.cleanup outDir), .common (.mkdirAll outDir none)]))).1,
        (tr.serviceKeys.foldl (renderClientStep cenv tr outDir)
          (clientShared cenv tr outDir
            ((cenv.mkdirAll outDir (cenv.cleanup tr outDir w)).2,
              [.common (.cleanup outDir), .common (.mkdirAll outDir none)]))).2) := by
  unfold Transport.RenderClient
  simp only [hmk]

/-! ### The registrations are the retained, annotated interfaces in scan order -/

theorem calls_append (a b : List (Event σ)) : calls (a ++ b) = calls a ++ calls b := by
  induction a with
  | nil => rfl
  | cons e a ih => cases e <;> simp [calls, ih]

theorem callSites_append (a b : List (Event σ)) :
    callSites (a ++ b) = callSites a ++ callSites b := by
  simp [callSites, calls_append]

theorem regs_eq_map_calls (evs : List (Event σ)) :
    regs evs = (calls evs).map (fun c => (c.2.1.name, c.2.2)) := by
  induction evs with
  | nil => rfl
  | cons e evs ih => cases e <;> simp [regs, calls, ih]

theorem mem_calls {evs : List (Event σ)} {c : String × Interface × σ} :
    c ∈ calls evs ↔ Event.newService c.1 c.2.1 c.2.2 ∈ evs := by
  induction evs with
  | nil => simp [calls]
  | cons e evs ih =>
    obtain ⟨p, i, sv⟩ := c
    cases e <;> simp [calls, ih]

theorem callSites_of_no_newService {evs : List (Event σ)}
    (h : ∀ path iface svc, Event.newService path iface svc ∉ evs) : callSites evs = [] := by
  cases hc : calls evs with
  | nil => simp [callSites, hc]
  | cons c l =>
    exfalso
    have hm : c ∈ calls evs := by rw [hc]; simp
    exact h _ _ _ (mem_calls.1 hm)

theorem isCandidate_iff (env : Env σ μ) (incl excl : List String) (iface : Interface) :
    isCandidate env incl excl iface = true ↔
      retained incl excl iface.name ∧ (env.parseTags iface.docs).length ≠ 0 := by
  simp only [isCandidate, decide_eq_true_eq, retained, and_assoc]

theorem candidates_append (env : Env σ μ) (incl excl : List String) (p1 p2 : List String) :
    candidates env incl excl (p1 ++ p2) =
      candidates env incl excl p1 ++ candidates env incl excl p2 := by
  induction p1 with
  | nil => rfl
  | cons p p1 ih => simp [candidates, ih]

theorem scanIface_callSites (env : Env σ μ) (incl excl : List String) (path : String)
    (tr : Transport σ μ) (t : List (Event σ)) (iface : Interface) :
    callSites (scanIface env incl excl path (tr, t) iface).2 =
      callSites t ++ (if isCandidate env incl excl iface = true then [(path, iface)] else []) := by
  unfold scanIface
  by_cases h1 : incl.length ≠ 0 ∧ ¬ incl.contains iface.name = true
  · rw [if_pos h1]
    have hc : ¬ isCandidate env incl excl iface = true := by
      rw [isCandidate_iff]
      intro h
      exact absurd (h.1.1 h1.1) (by simpa using h1.2)
    rw [if_neg hc, callSites_append]
    simp [callSites, calls]
  · rw [if_neg h1]
    by_cases h2 : excl.length ≠ 0 ∧ excl.contains iface.name = true
    · rw [if_pos h2]
      have hc : ¬ isCandidate env incl excl iface = true := by
        rw [isCandidate_iff]
        intro h
        exact absurd (by simpa using h2.2) (h.1.2 h2.1)
      rw [if_neg hc, callSites_append]
      simp [callSites, calls]
    · rw [if_neg h2]
      by_cases h3 : (env.parseTags iface.docs).length ≠ 0
      · rw [if_pos h3]
        have hc : isCandidate env incl excl iface = true := by
          rw [isCandidate_iff]
          refine ⟨⟨?_, ?_⟩, h3⟩
          · intro hi
            by_contra hn
            exact h1 ⟨hi, by simpa using hn⟩
          · intro he hn
            exact h2 ⟨he, by simpa using hn⟩
        rw [if_pos hc]
        simp only []
        rw [callSites_append]
        simp [callSites, calls]
      · rw [if_neg h3]
        have hc : ¬ isCandidate env incl excl iface = true := by
          rw [isCandidate_iff]
          exact fun h => h3 h.2
        rw [if_neg hc]
        simp

theorem foldl_scanIface_callSites (env : Env σ μ) (incl excl : List String) (path : String)
    (l : List Interface) (tr : Transport σ μ) (t : List (Event σ)) :
    callSites (l.foldl (scanIface env incl excl path) (tr, t)).2 =
      callSites t ++ (l.filter (isCandidate env incl excl)).map (fun i => (path, i)) := by
  induction l generalizing tr t with
  | nil => simp
  | cons i l ih =>
    rw [List.foldl_cons]
    have h := ih (scanIface env incl excl path (tr, t) i).1
      (scanIface env incl excl path (tr, t) i).2
    rw [h, scanIface_callSites]
    by_cases hc : isCandidate env incl excl i = true
    · simp [hc, List.filter_cons]
    · simp [hc, List.filter_cons]

theorem scanFile_callSites (env : Env σ μ) (incl excl : List String) (st : ScanState σ μ)
    (f : DirEntry) :
    callSites (scanFile env incl excl st f).1.trace =
      callSites st.trace ++ candidates env incl excl (goPaths env st.svcDir [f]) := by
  by_cases hskip : f.isDir = true ∨ ¬ hasSuffix f.name ".go" = true
  · rw [scanFile_skip env incl excl st f hskip, goPaths_skip env _ f [] hskip]
    simp [goPaths, candidates]
  · have hp1 : goPaths env st.svcDir [f] = [env.join (env.abs st.svcDir) f.name] := by
      rw [goPaths_go env _ f [] hskip]; rfl
    rw [hp1]
    unfold scanFile
    rw [if_neg hskip]
    cases hparse : env.parseFile (env.join (env.abs st.svcDir) f.name) with
    | error e =>
      simp only [hparse, candidates, candidatesOf, callSites_append]
      simp [callSites, calls]
    | ok file =>
      simp only [hparse, candidates, candidatesOf, foldl_scanIface_callSites,
        callSites_append]
      simp [callSites, calls]

theorem scanFiles_callSites (env : Env σ μ) (incl excl : List String) (files : List DirEntry)
    (st : ScanState σ μ) (hok : (scanFiles env incl excl files st).2 = none) :
    callSites (scanFiles env incl excl files st).1.trace =
      callSites st.trace ++ candidates env incl excl (goPaths env st.svcDir files) := by
  induction files generalizing st with
  | nil => simp [scanFiles, goPaths, candidates]
  | cons f fs ih =>
    have h1 := scanFile_callSites env incl excl st f
    obtain ⟨_, _, _, _, hg⟩ := scanFile_spec env incl excl st f
    cases hres : scanFile env incl excl st f with
    | mk st1 oe =>
      rw [hres] at h1 hg
      cases oe with
      | some e => simp [scanFiles, hres] at hok
      | none =>
        have hr : scanFiles env incl excl (f :: fs) st = scanFiles env incl excl fs st1 := by
          simp only [scanFiles, hres]
        rw [hr] at hok ⊢
        rw [ih st1 hok, h1, hg fs, candidates_append, List.append_assoc]

/-- After a build without error, `newService` has been called on the retained, annotated
interfaces of the scanned files, once each and in scan order. -/
theorem NewTransport_callSites (env : Env σ μ) (version svcDir : String)
    (ifaces : List String) (hok : (NewTransport env version svcDir ifaces).err = none) :
    callSites (NewTransport env version svcDir ifaces).trace =
      candidates env (splitIfaces ifaces).1 (splitIfaces ifaces).2 (scanPaths env svcDir) := by
  by_cases hc : conflict ifaces
  · rw [NewTransport_conflict env version svcDir ifaces hc] at hok
    simp at hok
  · rcases hgm : goMod env (emptyTransport version) svcDir with ⟨tr1, oe, t1⟩
    have hg0 : callSites t1 = [] := by
      have h := (goMod_fst_services env (emptyTransport version) svcDir).2.2
      rw [hgm] at h
      exact callSites_of_no_newService h
    cases oe with
    | some e =>
      rw [NewTransport_goMod_error env version svcDir ifaces hc tr1 e t1 hgm] at hok
      simp at hok
    | none =>
      cases hrd : ReadDir env svcDir with
      | error e =>
        rw [NewTransport_readDir_error env version svcDir ifaces hc tr1 t1 hgm e hrd] at hok
        simp at hok
      | ok files =>
        rw [NewTransport_scan env version svcDir ifaces hc tr1 t1 hgm files hrd] at hok ⊢
        simp only at hok ⊢
        rw [scanFiles_callSites env _ _ files _ hok]
        simp only [scanPaths, hrd, callSites_append, hg0]
        simp [callSites, calls]

/-- After a build without error, the service held under a name was built by `newService`
from the last retained, annotated interface of that name in scan order. -/
theorem NewTransport_lookup_last_candidate (env : Env σ μ) (version svcDir : String)
    (ifaces : List String) (hok : (NewTransport env version svcDir ifaces).err = none)
    (name : String) (svc : σ)
    (hl : (NewTransport env version svcDir ifaces).tr.services.lookup name = some svc) :
    ∃ pre path iface post tr0,
      candidates env (splitIfaces ifaces).1 (splitIfaces ifaces).2 (scanPaths env svcDir) =
        pre ++ (path, iface) :: post ∧
      iface.name = name ∧ (∀ q ∈ post, q.2.name ≠ name) ∧
      svc = env.newService tr0 path iface := by
  have hsound := NewTransport_sound env version svcDir ifaces
  have hs := hsound.services
  rw [services_emptyTransport] at hs
  rw [hs, lookup_insertAll_empty, regs_eq_map_calls] at hl
  obtain ⟨rpre, rpost, hreg, hlast⟩ := hl
  obtain ⟨cpre, crest, hcalls, hmpre, hmrest⟩ := List.map_eq_append_iff.1 hreg
  obtain ⟨c, cpost, hcrest, hc, hmpost⟩ := List.map_eq_cons_iff.1 hmrest
  have hmem : c ∈ calls (NewTransport env version svcDir ifaces).trace := by
    rw [hcalls, hcrest]; simp
  obtain ⟨_, tr0, htr0⟩ := hsound.origin c.1 c.2.1 c.2.2 (mem_calls.1 hmem)
  have hname : c.2.1.name = name := (Prod.mk.inj hc).1
  have hsvc : c.2.2 = svc := (Prod.mk.inj hc).2
  refine ⟨cpre.map (fun c => (c.1, c.2.1)), c.1, c.2.1, cpost.map (fun c => (c.1, c.2.1)),
    tr0, ?_, hname, ?_, by rw [← hsvc]; exact htr0⟩
  · rw [← NewTransport_callSites env version svcDir ifaces hok]
    simp [callSites, hcalls, hcrest]
  · intro q hq
    obtain ⟨c1, hc1, rfl⟩ := List.mem_map.1 hq
    have h2 := hlast (c1.2.1.name, c1.2.2) (by rw [← hmpost]; exact List.mem_map_of_mem _ hc1)
    exact h2

/-- After a build without error, a retained, annotated interface that no retained, annotated
interface of the same name follows in scan order is present: the service held under its
name was built by `newService` from this interface. -/
theorem NewTransport_last_candidate_present (env : Env σ μ) (version svcDir : String)
    (ifaces : List String) (hok : (NewTransport env version svcDir ifaces).err = none)
    (pre post : List (String × Interface)) (path : String) (iface : Interface)
    (hcand : candidates env (splitIfaces ifaces).1 (splitIfaces ifaces).2
      (scanPaths env svcDir) = pre ++ (path, iface) :: post)
    (hlast : ∀ q ∈ post, q.2.name ≠ iface.name) :
    ∃ tr0, (NewTransport env version svcDir ifaces).tr.services.lookup iface.name =
      some (env.newService tr0 path iface) := by
  have hsound := NewTransport_sound env version svcDir ifaces
  have hs := hsound.services
  rw [services_emptyTransport] at hs
  have hsites := NewTransport_callSites env version svcDir ifaces hok
  rw [hcand] at hsites
  obtain ⟨cpre, crest, hcalls, hmpre, hmrest⟩ := List.map_eq_append_iff.1 hsites
  obtain ⟨c, cpost, hcrest, hc, hmpost⟩ := List.map_eq_cons_iff.1 hmrest
  have hmem : c ∈ calls (NewTransport env version svcDir ifaces).trace := by
    rw [hcalls, hcrest]; simp
  obtain ⟨_, tr0, htr0⟩ := hsound.origin c.1 c.2.1 c.2.2 (mem_calls.1 hmem)
  have hpath : c.1 = path := (Prod.mk.inj hc).1
  have hiface : c.2.1 = iface := (Prod.mk.inj hc).2
  rw [hpath, hiface] at htr0
  refine ⟨tr0, ?_⟩
  rw [hs, lookup_insertAll_empty, regs_eq_map_calls]
  refine ⟨cpre.map (fun c => (c.2.1.name, c.2.2)), cpost.map (fun c => (c.2.1.name, c.2.2)),
    ?_, ?_⟩
  · rw [hcalls, hcrest, List.map_append, List.map_cons, hiface, htr0]
  · intro p hp
    obtain ⟨c1, hc1, rfl⟩ := List.mem_map.1 hp
    exact hlast (c1.1, c1.2.1) (by rw [← hmpost]; exact List.mem_map_of_mem _ hc1)

theorem strLE_refl (a : String) : strLE a a = true := by
  rcases charsLE_total a.data a.data with h | h <;> exact h

/-- In a sorted list of names no name is above the last one. -/
theorem sorted_le_last {l ys : List String} {a : String}
    (hs : l.Sorted (fun x y => strLE x y = true)) (h : l = ys ++ [a]) :
    ∀ x ∈ l, strLE x a = true := by
  intro x hx
  rw [h] at hs hx
  rcases List.mem_append.1 hx with hx | hx
  · exact (List.pairwise_append.1 hs).2.2 x hx a (by simp)
  · simp only [List.mem_singleton] at hx
    rw [hx]
    exact strLE_refl a

theorem serviceKeys_sorted (tr : Transport σ μ) :
    tr.serviceKeys.Sorted (fun a b => strLE a b = true) :=
  sortStrings_sorted _

theorem lastOr_concat (d : Option Error) (ys : List (String × Option Error))
    (p : String × Option Error) : lastOr d (ys ++ [p]) = p.2 := by
  simp [lastOr, List.getLast?_concat]

/-! ## Claims -/

/-- C1: when the arguments of `NewTransport` hold a name starting with `!` and a name not
starting with `!`, the error is non-nil, no collaborator has been called (neither the module
file nor the directory nor any source file has been read), and the transport returned holds
no services. -/
theorem NewTransport_mixed_selection (env : Env σ μ) (version svcDir : String)
    (ifaces : List String) (a b : String) (ha : a ∈ ifaces) (hb : b ∈ ifaces)
    (hpa : hasPrefix a "!" = true) (hpb : hasPrefix b "!" = false) :
    (NewTransport env version svcDir ifaces).err ≠ none ∧
    (NewTransport env version svcDir ifaces).trace = [] ∧
    (NewTransport env version svcDir ifaces).tr.services = ∅ := by
  have hi : (splitIfaces ifaces).1.length ≠ 0 := by
    rw [splitIfaces_fst]
    have : b ∈ ifaces.filter (fun s => !hasPrefix s "!") := by
      simp [List.mem_filter, hb, hpb]
    intro h0
    rw [List.length_eq_zero] at h0
    rw [h0] at this
    simp at this
  have he : (splitIfaces ifaces).2.length ≠ 0 := by
    rw [splitIfaces_snd]
    have : a ∈ ifaces.filter (fun s => hasPrefix s "!") := by
      simp [List.mem_filter, ha, hpa]
    intro h0
    rw [List.length_map, List.length_eq_zero] at h0
    rw [h0] at this
    simp at this
  simp [NewTransport, hi, he, emptyTransport]

/-- Witness of C1 on the arguments `!Admin` and `Catalog`. -/
theorem NewTransport_mixed_selection_witness :
    (NewTransport demoEnv "v1" "svc" ["!Admin", "Catalog"]).err ≠ none ∧
    (NewTransport demoEnv "v1" "svc" ["!Admin", "Catalog"]).trace = [] ∧
    (NewTransport demoEnv "v1" "svc" ["!Admin", "Catalog"]).tr.services = ∅ :=
  NewTransport_mixed_selection demoEnv "v1" "svc" ["!Admin", "Catalog"] "!Admin" "Catalog"
    (by decide) (by decide) (by decide) (by decide)

/-- C2 fails as stated: in the tree of `brokenEnv` the file `c.go` does not parse, the
files `a.go` and `b.go` scanned before it have registered services, and `NewTransport`
returns the error together with a transport that holds these services. -/
theorem NewTransport_partial_on_parse_error :
    (NewTransport brokenEnv "v1" "svc" []).err = some "syntax error" ∧
    (NewTransport brokenEnv "v1" "svc" []).tr.services.keys = ["Orders", "Catalog"] := by
  decide

/-- C2, amended: when `NewTransport` returns an error, either the error comes from the
contradictory selection, from `goMod` or from reading the directory, and the transport
returned holds no services; or a file `f` of the sorted listing does not parse, and the
transport returned is the one that the build over the entries before `f` returns without
error. -/
theorem NewTransport_error_transport (env : Env σ μ) (version svcDir : String)
    (ifaces : List String) (e : Error)
    (herr : (NewTransport env version svcDir ifaces).err = some e) :
    ((conflict ifaces ∨ (goMod env (emptyTransport version) svcDir).2.1 ≠ none ∨
        ∃ e1, ReadDir env svcDir = .error e1) ∧
      (NewTransport env version svcDir ifaces).tr.services = ∅) ∨
    (∃ pre f post path, ReadDir env svcDir = .ok (pre ++ f :: post) ∧
      goPaths env svcDir (pre ++ [f]) = goPaths env svcDir pre ++ [path] ∧
      env.parseFile path = .error e ∧
      (NewTransport (env.withListing pre) version svcDir ifaces).err = none ∧
      (NewTransport (env.withListing pre) version svcDir ifaces).tr =
        (NewTransport env version svcDir ifaces).tr) := by
  by_cases hc : conflict ifaces
  · left
    refine ⟨Or.inl hc, ?_⟩
    rw [NewTransport_conflict env version svcDir ifaces hc]
    rfl
  · rcases hgm : goMod env (emptyTransport version) svcDir with ⟨tr1, oe, t1⟩
    have hsv : tr1.services = ∅ := by
      have h := (goMod_fst_services env (emptyTransport version) svcDir).1
      rw [hgm] at h
      exact h
    cases oe with
    | some e1 =>
      left
      refine ⟨Or.inr (Or.inl (by simp)), ?_⟩
      rw [NewTransport_goMod_error env version svcDir ifaces hc tr1 e1 t1 hgm]
      exact hsv
    | none =>
      cases hrd : ReadDir env svcDir with
      | error e1 =>
        left
        refine ⟨Or.inr (Or.inr ⟨e1, rfl⟩), ?_⟩
        rw [NewTransport_readDir_error env version svcDir ifaces hc tr1 t1 hgm e1 hrd]
        exact hsv
      | ok files =>
        right
        rw [NewTransport_scan env version svcDir ifaces hc tr1 t1 hgm files hrd] at herr ⊢
        simp only at herr ⊢
        rcases hres : scanFiles env (splitIfaces ifaces).1 (splitIfaces ifaces).2 files
          { tr := tr1, svcDir := svcDir, trace := t1 ++ [.readDir svcDir] } with ⟨st2, oe2⟩
        rw [hres] at herr
        simp only at herr
        subst herr
        obtain ⟨pre, f, post, st1, path, hfiles, hpre, htr, hgp, hparse⟩ :=
          scanFiles_error env _ _ files _ st2 e hres
        have hsorted : sortEntries pre = pre := by
          cases hdl : env.dirList svcDir with
          | error e2 => simp [ReadDir, hdl] at hrd
          | ok l =>
            have h2 : sortEntries l = files := by simpa [ReadDir, hdl] using hrd
            rw [hfiles] at h2
            exact sortEntries_prefix h2
        refine ⟨pre, f, post, path, by rw [hfiles], hgp, hparse, ?_, ?_⟩
        · rw [NewTransport_withListing env pre version svcDir ifaces hc tr1 t1 hgm, hsorted,
            hpre]
        · rw [NewTransport_withListing env pre version svcDir ifaces hc tr1 t1 hgm, hsorted,
            hpre]
          exact htr.symm

/-- Witness of the amended C2 on the tree of `brokenEnv`. -/
theorem NewTransport_error_transport_witness :
    (NewTransport brokenEnv "v1" "svc" []).err = some "syntax error" ∧
    (((conflict [] ∨ (goMod brokenEnv (emptyTransport "v1") "svc").2.1 ≠ none ∨
        ∃ e1, ReadDir brokenEnv "svc" = .error e1) ∧
      (NewTransport brokenEnv "v1" "svc" []).tr.services = ∅) ∨
    (∃ pre f post path, ReadDir brokenEnv "svc" = .ok (pre ++ f :: post) ∧
      goPaths brokenEnv "svc" (pre ++ [f]) = goPaths brokenEnv "svc" pre ++ [path] ∧
      brokenEnv.parseFile path = .error "syntax error" ∧
      (NewTransport (brokenEnv.withListing pre) "v1" "svc" []).err = none ∧
      (NewTransport (brokenEnv.withListing pre) "v1" "svc" []).tr =
        (NewTransport brokenEnv "v1" "svc" []).tr)) :=
  ⟨by decide, NewTransport_error_transport brokenEnv "v1" "svc" [] "syntax error" (by decide)⟩

/-- C3 fails as stated: in the tree of `demoEnv` the files `a.go` and `b.go` both declare an
annotated interface `Catalog`; `NewTransport` returns no error, and the service built from
`b.go` has replaced the one built from `a.go`. -/
theorem NewTransport_duplicate_name_no_error :
    (NewTransport demoEnv "v1" "svc" []).err = none ∧
    (NewTransport demoEnv "v1" "svc" []).tr.services.lookup "Catalog" =
      some ("svc/b.go", ["@tg http-server"]) ∧
    regs (NewTransport demoEnv "v1" "svc" []).trace =
      [("Catalog", ("svc/a.go", ["@tg jsonRPC-server"])),
       ("Catalog", ("svc/b.go", ["@tg http-server"])),
       ("Orders", ("svc/b.go", ["@tg http-server"]))] := by
  decide

/-- C3, amended: interface names play no part in the error of `NewTransport`, which is nil
exactly when the selection is not contradictory, `goMod` succeeds, the directory can be
read and every `.go` file of it parses; the services map holds under each name the service
registered last under that name; and after a build without error `newService` has been
called on the retained, annotated interfaces of the scanned files in scan order, the service
held under a name is the one built from the last retained, annotated interface of that name
in scan order, and of two retained, annotated interfaces of one name, the later being the
last of that name, the service built from the later one is the one the map holds: it has
replaced the other. -/
theorem NewTransport_error_iff_and_last_wins (env : Env σ μ) (version svcDir : String)
    (ifaces : List String) :
    ((NewTransport env version svcDir ifaces).err = none ↔
      (¬ conflict ifaces ∧ (goMod env (emptyTransport version) svcDir).2.1 = none ∧
        (∃ files, ReadDir env svcDir = .ok files) ∧
        ∀ path ∈ scanPaths env svcDir, ∃ file, env.parseFile path = .ok file)) ∧
    (∀ name svc, (NewTransport env version svcDir ifaces).tr.services.lookup name = some svc ↔
      ∃ pre post, regs (NewTransport env version svcDir ifaces).trace = pre ++ (name, svc) :: post ∧
        ∀ p ∈ post, p.1 ≠ name) ∧
    ((NewTransport env version svcDir ifaces).err = none →
      callSites (NewTransport env version svcDir ifaces).trace =
        candidates env (splitIfaces ifaces).1 (splitIfaces ifaces).2 (scanPaths env svcDir) ∧
      (∀ name svc,
        (NewTransport env version svcDir ifaces).tr.services.lookup name = some svc →
        ∃ pre path iface post tr0,
          candidates env (splitIfaces ifaces).1 (splitIfaces ifaces).2 (scanPaths env svcDir) =
            pre ++ (path, iface) :: post ∧
          iface.name = name ∧ (∀ q ∈ post, q.2.name ≠ name) ∧
          svc = env.newService tr0 path iface) ∧
      (∀ pre mid post path1 iface1 path2 iface2,
        candidates env (splitIfaces ifaces).1 (splitIfaces ifaces).2 (scanPaths env svcDir) =
          (pre ++ (path1, iface1) :: mid) ++ (path2, iface2) :: post →
        iface1.name = iface2.name → (∀ q ∈ post, q.2.name ≠ iface2.name) →
        ∃ tr0, (NewTransport env version svcDir ifaces).tr.services.lookup iface1.name =
          some (env.newService tr0 path2 iface2))) := by
  refine ⟨?_, ?_, ?_⟩
  · by_cases hc : conflict ifaces
    · rw [NewTransport_conflict env version svcDir ifaces hc]
      simp [hc]
    · rcases hgm : goMod env (emptyTransport version) svcDir with ⟨tr1, oe, t1⟩
      cases oe with
      | some e1 =>
        rw [NewTransport_goMod_error env version svcDir ifaces hc tr1 e1 t1 hgm]
        simp
      | none =>
        cases hrd : ReadDir env svcDir with
        | error e1 =>
          rw [NewTransport_readDir_error env version svcDir ifaces hc tr1 t1 hgm e1 hrd]
          simp
        | ok files =>
          rw [NewTransport_scan env version svcDir ifaces hc tr1 t1 hgm files hrd]
          simp only [scanFiles_ok_iff, scanPaths, hrd]
          simp [hc]
  · intro name svc
    have hs := (NewTransport_sound env version svcDir ifaces).services
    rw [services_emptyTransport] at hs
    rw [hs]
    exact lookup_insertAll_empty _ name svc
  · intro hok
    refine ⟨NewTransport_callSites env version svcDir ifaces hok,
      NewTransport_lookup_last_candidate env version svcDir ifaces hok, ?_⟩
    intro pre mid post path1 iface1 path2 iface2 hcand hname hlast
    rw [hname]
    exact NewTransport_last_candidate_present env version svcDir ifaces hok _ post path2 iface2
      hcand hlast

/-- Witness of the amended C3 on the tree of `demoEnv`: the retained, annotated interfaces in
scan order are `Catalog` of `a.go`, `Catalog` of `b.go` and `Orders` of `b.go`, and the
service held under `Catalog` is the one built from `b.go`. -/
theorem NewTransport_error_iff_and_last_wins_witness :
    (NewTransport demoEnv "v1" "svc" []).err = none ∧
    candidates demoEnv (splitIfaces []).1 (splitIfaces []).2 (scanPaths demoEnv "svc") =
      ([] ++ ("svc/a.go", ⟨"Catalog", ["@tg jsonRPC-server"]⟩) :: []) ++
        ("svc/b.go", ⟨"Catalog", ["@tg http-server"]⟩) ::
          [("svc/b.go", ⟨"Orders", ["@tg http-server"]⟩)] ∧
    ∃ tr0, (NewTransport demoEnv "v1" "svc" []).tr.services.lookup "Catalog" =
      some (demoEnv.newService tr0 "svc/b.go" ⟨"Catalog", ["@tg http-server"]⟩) :=
  ⟨by decide, by decide,
    ((NewTransport_error_iff_and_last_wins demoEnv "v1" "svc" []).2.2 (by decide)).2.2
      [] [] [("svc/b.go", ⟨"Orders", ["@tg http-server"]⟩)]
      "svc/a.go" ⟨"Catalog", ["@tg jsonRPC-server"]⟩
      "svc/b.go" ⟨"Catalog", ["@tg http-server"]⟩ (by decide) rfl (by decide)⟩

/-- C4: `serviceKeys` is sorted in ascending order, has no duplicates, and its elements are
exactly the keys of the services map; so two transports whose maps have the same keys
yield the same list, in whatever order the keys were inserted or are iterated. -/
theorem serviceKeys_sorted_nodup_exact (tr : Transport σ μ) :
    tr.serviceKeys.Sorted (fun a b => strLE a b = true) ∧
    tr.serviceKeys.Nodup ∧
    (∀ k, k ∈ tr.serviceKeys ↔ k ∈ tr.services.keys) ∧
    (∀ tr2 : Transport σ μ, (∀ k, k ∈ tr.services.keys ↔ k ∈ tr2.services.keys) →
      tr.serviceKeys = tr2.serviceKeys) := by
  refine ⟨sortStrings_sorted _, serviceKeys_nodup tr, mem_serviceKeys tr, ?_⟩
  intro tr2 h
  have hperm : tr.serviceKeys.Perm tr2.serviceKeys := by
    rw [List.perm_ext_iff_of_nodup (serviceKeys_nodup tr) (serviceKeys_nodup tr2)]
    intro k
    rw [mem_serviceKeys, mem_serviceKeys, h]
  exact List.eq_of_perm_of_sorted hperm (sortStrings_sorted _) (sortStrings_sorted _)

/-- Witness of C4: the services `Orders` and `Catalog` inserted in the two possible
orders. -/
theorem serviceKeys_sorted_nodup_exact_witness :
    (∀ k, k ∈ (transportOf [("Orders", "o"), ("Catalog", "c")]).services.keys ↔
      k ∈ (transportOf [("Catalog", "c"), ("Orders", "o")]).services.keys) ∧
    (transportOf [("Orders", "o"), ("Catalog", "c")]).serviceKeys =
      (transportOf [("Catalog", "c"), ("Orders", "o")]).serviceKeys :=
  have h : ∀ k, k ∈ (transportOf [("Orders", "o"), ("Catalog", "c")]).services.keys ↔
      k ∈ (transportOf [("Catalog", "c"), ("Orders", "o")]).services.keys := by
    intro k
    have h1 : (transportOf [("Orders", "o"), ("Catalog", "c")]).services.keys =
        ["Catalog", "Orders"] := by decide
    have h2 : (transportOf [("Catalog", "c"), ("Orders", "o")]).services.keys =
        ["Orders", "Catalog"] := by decide
    rw [h1, h2]
    simp only [List.mem_cons, List.mem_singleton, List.not_mem_nil, or_false]
    exact or_comm
  ⟨h, (serviceKeys_sorted_nodup_exact _).2.2.2 _ h⟩

/-- C5: in the transport that `NewTransport` returns (for every build, so for every
successful one) each service held under a name was built by `newService` from an interface
of that name, found in a scanned file that parses, whose documentation yields at least one
annotation; `newService` is never called on an interface whose documentation yields none;
and a name borne only by interfaces without annotations is no key of the services map,
whatever the arguments that select interfaces are. -/
theorem NewTransport_services_annotated (env : Env σ μ) (version svcDir : String)
    (ifaces : List String) :
    (∀ name svc, (NewTransport env version svcDir ifaces).tr.services.lookup name = some svc →
      ∃ path file iface tr0, path ∈ scanPaths env svcDir ∧ env.parseFile path = .ok file ∧
        iface ∈ file.interfaces ∧ iface.name = name ∧
        (env.parseTags iface.docs).length ≠ 0 ∧ svc = env.newService tr0 path iface) ∧
    (∀ path iface svc,
      Event.newService path iface svc ∈ (NewTransport env version svcDir ifaces).trace →
        (env.parseTags iface.docs).length ≠ 0) ∧
    (∀ name,
      (∀ path ∈ scanPaths env svcDir, ∀ file, env.parseFile path = .ok file →
        ∀ iface ∈ file.interfaces, iface.name = name →
          (env.parseTags iface.docs).length = 0) →
      name ∉ (NewTransport env version svcDir ifaces).tr.services.keys) := by
  have hsound := NewTransport_sound env version svcDir ifaces
  have h1 : ∀ name svc,
      (NewTransport env version svcDir ifaces).tr.services.lookup name = some svc →
      ∃ path file iface tr0, path ∈ scanPaths env svcDir ∧ env.parseFile path = .ok file ∧
        iface ∈ file.interfaces ∧ iface.name = name ∧
        (env.parseTags iface.docs).length ≠ 0 ∧ svc = env.newService tr0 path iface := by
    intro name svc h
    obtain ⟨path, iface, hev, hname⟩ := NewTransport_lookup_event env version svcDir ifaces _ _ h
    obtain ⟨⟨hp, ⟨file, hf, hm⟩, _, ha⟩, tr0, htr⟩ := hsound.origin path iface svc hev
    exact ⟨path, file, iface, tr0, hp, hf, hm, hname, ha, htr⟩
  refine ⟨h1, ?_, ?_⟩
  · intro path iface svc hev
    exact (hsound.origin path iface svc hev).1.2.2.2
  · intro name hall hk
    obtain ⟨svc, hl⟩ := lookup_of_mem_keys hk
    obtain ⟨path, file, iface, _, hp, hf, hm, hname, ha, _⟩ := h1 name svc hl
    exact ha (hall path hp file hf iface hm hname)

/-- C7: the build does not depend on the order in which the directory lists its entries:
for two listings that are permutations of each other `NewTransport` returns the same
transport (tags, services, `hasJsonRPC` and the rest), the same error and makes the same
calls, as `os.ReadDir` hands the entries over sorted by file name. -/
theorem NewTransport_listing_order (env : Env σ μ) (version svcDir : String)
    (ifaces : List String) (l1 l2 : List DirEntry) (hperm : l1.Perm l2) :
    NewTransport (env.withListing l1) version svcDir ifaces =
      NewTransport (env.withListing l2) version svcDir ifaces :=
  NewTransport_withListing_congr env l1 l2 version svcDir ifaces
    (goFiles_sortEntries_eq_of_perm hperm)

/-- Witness of C7: the tree of `demoEnv` listed in two orders. -/
theorem NewTransport_listing_order_witness :
    [DirEntry.mk "b.go" false, ⟨"sub", true⟩, ⟨"a.go", false⟩].Perm
      [⟨"sub", true⟩, ⟨"a.go", false⟩, ⟨"b.go", false⟩] ∧
    NewTransport (demoEnv.withListing [⟨"b.go", false⟩, ⟨"sub", true⟩, ⟨"a.go", false⟩])
        "v1" "svc" [] =
      NewTransport (demoEnv.withListing [⟨"sub", true⟩, ⟨"a.go", false⟩, ⟨"b.go", false⟩])
        "v1" "svc" [] :=
  ⟨by decide,
    NewTransport_listing_order demoEnv "v1" "svc" []
      [⟨"b.go", false⟩, ⟨"sub", true⟩, ⟨"a.go", false⟩]
      [⟨"sub", true⟩, ⟨"a.go", false⟩, ⟨"b.go", false⟩] (by decide)⟩

/-- C8 does not hold of the code: with the services `Alpha`, whose render fails, and
`Beta`, whose render succeeds, the directory being created without error, `RenderServer`
calls both renders and returns nil, the result of the render of `Beta`. -/
theorem RenderServer_swallows_earlier_failure :
    (demoRender false).mkdirAll "out" [] = (none, []) ∧
    renders ((transportOf [("Beta", "ok"), ("Alpha", "broken")]).RenderServer
      (demoRender false) "out" []).2.2 = [("Alpha", some "render failed"), ("Beta", none)] ∧
    ((transportOf [("Beta", "ok"), ("Alpha", "broken")]).RenderServer
      (demoRender false) "out" []).1 = none := by
  decide

/-- C9: when the output directory is created without error, `RenderServer` calls
`svc.render` once for each key of the services map, in ascending order of the names (each
name is at most the names rendered after it) and each time on the service held under the
name, whatever the earlier calls returned; what it returns is the result of the last of
these calls, which is the call for the greatest name, and nil when the map is empty.  The
results of the shared emitters are only logged. -/
theorem RenderServer_renders_all_returns_last (renv : RenderEnv σ μ W) (tr : Transport σ μ)
    (outDir : String) (w : W)
    (hmk : (renv.mkdirAll outDir (renv.cleanup tr outDir w)).1 = none) :
    (renders (tr.RenderServer renv outDir w).2.2).map Prod.fst = tr.serviceKeys ∧
    ((renders (tr.RenderServer renv outDir w).2.2).map Prod.fst).Sorted
      (fun a b => strLE a b = true) ∧
    (∀ name ∈ tr.services.keys,
      ((renders (tr.RenderServer renv outDir w).2.2).map Prod.fst).count name = 1) ∧
    (∀ p ∈ renders (tr.RenderServer renv outDir w).2.2, ∃ svc w1,
      tr.services.lookup p.1 = some svc ∧ p.2 = (renv.render svc outDir w1).1) ∧
    (tr.RenderServer renv outDir w).1 = lastResult (renders (tr.RenderServer renv outDir w).2.2) ∧
    (∀ p, (renders (tr.RenderServer renv outDir w).2.2).getLast? = some p →
      (∀ name ∈ tr.services.keys, strLE name p.1 = true) ∧
      (tr.RenderServer renv outDir w).1 = p.2) ∧
    (tr.services.keys = [] → (tr.RenderServer renv outDir w).1 = none) := by
  rw [RenderServer_ok renv tr outDir w hmk]
  obtain ⟨L, h1, h2, h3, h4⟩ := foldl_renderStep renv tr outDir tr.serviceKeys
    (fun n hn => (mem_serviceKeys tr n).1 hn)
    (none,
      (renderShared renv tr outDir (tr.hasTrace renv) (tr.hasMetrics renv)
        ((renv.mkdirAll outDir (renv.cleanup tr outDir w)).2,
          [.cleanup outDir, .mkdirAll outDir none])).1,
      (renderShared renv tr outDir (tr.hasTrace renv) (tr.hasMetrics renv)
        ((renv.mkdirAll outDir (renv.cleanup tr outDir w)).2,
          [.cleanup outDir, .mkdirAll outDir none])).2)
  have hL : renders (tr.serviceKeys.foldl (renderStep renv tr outDir)
      (none,
        (renderShared renv tr outDir (tr.hasTrace renv) (tr.hasMetrics renv)
          ((renv.mkdirAll outDir (renv.cleanup tr outDir w)).2,
            [.cleanup outDir, .mkdirAll outDir none])).1,
        (renderShared renv tr outDir (tr.hasTrace renv) (tr.hasMetrics renv)
          ((renv.mkdirAll outDir (renv.cleanup tr outDir w)).2,
            [.cleanup outDir, .mkdirAll outDir none])).2)).2.2 = L := by
    rw [h1, renders_renderShared]
    simp [renders]
  rw [hL, h3]
  refine ⟨h2, by rw [h2]; exact serviceKeys_sorted tr, ?_, h4, rfl, ?_, ?_⟩
  · intro name hk
    rw [h2]
    exact List.count_eq_one_of_mem (serviceKeys_nodup tr) ((mem_serviceKeys tr name).2 hk)
  · intro p hp
    obtain ⟨ys, hys⟩ := List.getLast?_eq_some_iff.1 hp
    refine ⟨?_, by rw [hys, lastOr_concat]⟩
    intro name hk
    have hkeys : tr.serviceKeys = ys.map Prod.fst ++ [p.1] := by
      rw [← h2, hys]; simp
    exact sorted_le_last (serviceKeys_sorted tr) hkeys name ((mem_serviceKeys tr name).2 hk)
  · intro hk
    have hL0 : L = [] := by
      have h5 : tr.serviceKeys = [] := by
        unfold Transport.serviceKeys sortStrings
        rw [hk]; rfl
      rw [h5] at h2
      exact List.map_eq_nil_iff.1 h2
    rw [hL0]
    rfl

/-- Witness of C9: the map lists `Beta` before `Alpha`, the shared emitter `renderFiber`
fails, the render of `Alpha` succeeds and the render of `Beta` fails; `Alpha` is rendered
first, `Beta` last, and the error of `Beta` is returned. -/
theorem RenderServer_renders_all_returns_last_witness :
    (transportOf [("Alpha", "ok"), ("Beta", "broken")]).services.keys = ["Beta", "Alpha"] ∧
    ((demoRender true).mkdirAll "out"
      ((demoRender true).cleanup (transportOf [("Alpha", "ok"), ("Beta", "broken")]) "out" [])).1
      = none ∧
    renders ((transportOf [("Alpha", "ok"), ("Beta", "broken")]).RenderServer
      (demoRender true) "out" []).2.2 = [("Alpha", none), ("Beta", some "render failed")] ∧
    ((transportOf [("Alpha", "ok"), ("Beta", "broken")]).RenderServer
      (demoRender true) "out" []).1 = some "render failed" ∧
    ((renders ((transportOf [("Alpha", "ok"), ("Beta", "broken")]).RenderServer
      (demoRender true) "out" []).2.2).map Prod.fst).Sorted (fun a b => strLE a b = true) :=
  ⟨by decide, by decide, by decide, by decide,
    (RenderServer_renders_all_returns_last (demoRender true)
      (transportOf [("Alpha", "ok"), ("Beta", "broken")]) "out" [] (by decide)).2.1⟩

/-- C10 fails as stated: in the tree of `demoEnv` the service `Catalog` of `a.go`, which
carries `jsonRPC-server`, is replaced by the service `Catalog` of `b.go`, which does not;
the build succeeds with `hasJsonRPC` set although no service of the map carries the tag. -/
theorem NewTransport_hasJsonRPC_after_replacement :
    (NewTransport demoEnv "v1" "svc" []).err = none ∧
    ¬ ((NewTransport demoEnv "v1" "svc" []).tr.hasJsonRPC = true ↔
      ∃ name svc, (NewTransport demoEnv "v1" "svc" []).tr.services.lookup name = some svc ∧
        isJsonRPC demoEnv svc = true) := by
  refine ⟨by decide, ?_⟩
  intro h
  have hflag : (NewTransport demoEnv "v1" "svc" []).tr.hasJsonRPC = true := by decide
  obtain ⟨name, svc, hl, hj⟩ := h.1 hflag
  have hent : (NewTransport demoEnv "v1" "svc" []).tr.services.entries =
      [⟨"Orders", ("svc/b.go", ["@tg http-server"])⟩,
       ⟨"Catalog", ("svc/b.go", ["@tg http-server"])⟩] := by decide
  have hmem := AList.mem_lookup_iff.1 hl
  rw [hent] at hmem
  simp only [List.mem_cons, Sigma.mk.inj_iff, heq_eq_eq, List.mem_singleton,
    List.not_mem_nil, or_false] at hmem
  rcases hmem with ⟨_, rfl⟩ | ⟨_, rfl⟩ <;> exact absurd hj (by decide)

/-- C10, amended: `hasJsonRPC` is true if and only if one of the services registered during
the build carries `jsonRPC-server`, be it still in the map or replaced since; so a service
of the map that carries the tag makes the flag true, and when no name was registered
twice the flag is true if and only if a service of the map carries the tag. -/
theorem NewTransport_hasJsonRPC_iff_registered (env : Env σ μ) (version svcDir : String)
    (ifaces : List String) :
    ((NewTransport env version svcDir ifaces).tr.hasJsonRPC = true ↔
      ∃ p ∈ regs (NewTransport env version svcDir ifaces).trace, isJsonRPC env p.2 = true) ∧
    (∀ name svc, (NewTransport env version svcDir ifaces).tr.services.lookup name = some svc →
      isJsonRPC env svc = true → (NewTransport env version svcDir ifaces).tr.hasJsonRPC = true) ∧
    (((regs (NewTransport env version svcDir ifaces).trace).map Prod.fst).Nodup →
      ((NewTransport env version svcDir ifaces).tr.hasJsonRPC = true ↔
        ∃ name svc, (NewTransport env version svcDir ifaces).tr.services.lookup name = some svc ∧
          isJsonRPC env svc = true)) := by
  have hsound := NewTransport_sound env version svcDir ifaces
  have hs := hsound.services
  rw [services_emptyTransport] at hs
  have hflag : (NewTransport env version svcDir ifaces).tr.hasJsonRPC = true ↔
      ∃ p ∈ regs (NewTransport env version svcDir ifaces).trace, isJsonRPC env p.2 = true := by
    rw [hsound.flag]
    simp [emptyTransport]
  have hin : ∀ name svc,
      (NewTransport env version svcDir ifaces).tr.services.lookup name = some svc →
      (name, svc) ∈ regs (NewTransport env version svcDir ifaces).trace := by
    intro name svc hl
    rw [hs, lookup_insertAll_empty] at hl
    obtain ⟨pre, post, hreg, _⟩ := hl
    rw [hreg]; simp
  refine ⟨hflag, ?_, ?_⟩
  · intro name svc hl hj
    exact hflag.2 ⟨(name, svc), hin name svc hl, hj⟩
  · intro hnd
    rw [hflag]
    constructor
    · rintro ⟨p, hp, hj⟩
      refine ⟨p.1, p.2, ?_, hj⟩
      rw [hs, lookup_insertAll_empty]
      obtain ⟨pre, post, hreg⟩ := List.append_of_mem hp
      refine ⟨pre, post, hreg, ?_⟩
      intro q hq hname
      rw [hreg, List.map_append, List.map_cons] at hnd
      have h2 := (List.nodup_cons.1 (List.nodup_append.1 hnd).2.1).1
      exact h2 (by rw [← hname]; exact List.mem_map_of_mem _ hq)
    · rintro ⟨name, svc, hl, hj⟩
      exact ⟨(name, svc), hin name svc hl, hj⟩

/-- C11: the first loop of `NewTransport` puts every argument into one of two lists and
keeps the order of the arguments: the include list is the list of the arguments that do
not start with `!`, unchanged and in order (the empty string among them); the exclude list
is the list of the arguments that start with `!`, in order, each without its first `!` and
nothing else removed, so that `!!A` leaves `!A`; and the include list together with the
exclude list, each name of which is given its `!` back, holds every argument exactly as
often as the arguments do. -/
theorem splitIfaces_partition (ifaces : List String) :
    (splitIfaces ifaces).1 = ifaces.filter (fun s => !hasPrefix s "!") ∧
    (splitIfaces ifaces).2 =
      (ifaces.filter (fun s => hasPrefix s "!")).map (fun s => trimPrefix s "!") ∧
    (splitIfaces ifaces).2.map (fun s => "!" ++ s) =
      ifaces.filter (fun s => hasPrefix s "!") ∧
    ((splitIfaces ifaces).1 ++ (splitIfaces ifaces).2.map (fun s => "!" ++ s)).Perm ifaces ∧
    (splitIfaces ifaces).1.length + (splitIfaces ifaces).2.length = ifaces.length ∧
    (∀ t : String, trimPrefix ("!" ++ t) "!" = t) ∧
    splitIfaces ["!!A"] = ([], ["!A"]) ∧
    splitIfaces [""] = ([""], []) ∧
    splitIfaces ["!!A", "", "B", "!C", "B"] = (["", "B", "B"], ["!A", "C"]) := by
  have hback : (splitIfaces ifaces).2.map (fun s => "!" ++ s) =
      ifaces.filter (fun s => hasPrefix s "!") := by
    rw [splitIfaces_snd, List.map_map]
    conv_rhs => rw [← List.map_id (ifaces.filter (fun s => hasPrefix s "!"))]
    apply List.map_congr_left
    intro s hs
    exact bang_append_trimPrefix s (List.mem_filter.1 hs).2
  have hperm : ((splitIfaces ifaces).1 ++
      (splitIfaces ifaces).2.map (fun s => "!" ++ s)).Perm ifaces := by
    rw [hback, splitIfaces_fst]
    exact List.perm_append_comm.trans (List.filter_append_perm _ ifaces)
  refine ⟨splitIfaces_fst ifaces, splitIfaces_snd ifaces, hback, hperm, ?_,
    trimPrefix_bang_append, by decide, by decide, by decide⟩
  have hlen := hperm.length_eq
  simpa using hlen

/-- C12: `RenderClient` returns the error of `os.MkdirAll`, so a non-nil error exactly when
the output directory cannot be created; when it is created, `RenderClient` returns nil
whatever the shared client emitters and the client renders of the services return, and it
calls `svc.renderClient` once for each key of the services map, in ascending order of the
names (each name is at most the names rendered after it) and each time on the service held
under the name. -/
theorem RenderClient_error_iff_mkdir (cenv : ClientEnv σ μ W) (tr : Transport σ μ)
    (outDir : String) (w : W) :
    (tr.RenderClient cenv outDir w).1 = (cenv.mkdirAll outDir (cenv.cleanup tr outDir w)).1 ∧
    ((tr.RenderClient cenv outDir w).1 ≠ none ↔
      (cenv.mkdirAll outDir (cenv.cleanup tr outDir w)).1 ≠ none) ∧
    ((cenv.mkdirAll outDir (cenv.cleanup tr outDir w)).1 = none →
      (tr.RenderClient cenv outDir w).1 = none ∧
      (clientRenders (tr.RenderClient cenv outDir w).2.2).map Prod.fst = tr.serviceKeys ∧
      ((clientRenders (tr.RenderClient cenv outDir w).2.2).map Prod.fst).Sorted
        (fun a b => strLE a b = true) ∧
      (∀ name ∈ tr.services.keys,
        ((clientRenders (tr.RenderClient cenv outDir w).2.2).map Prod.fst).count name = 1) ∧
      (∀ p ∈ clientRenders (tr.RenderClient cenv outDir w).2.2, ∃ svc w1,
        tr.services.lookup p.1 = some svc ∧ p.2 = (cenv.renderClient svc outDir w1).1)) := by
  have heq : (tr.RenderClient cenv outDir w).1 =
      (cenv.mkdirAll outDir (cenv.cleanup tr outDir w)).1 := by
    cases hmk : (cenv.mkdirAll outDir (cenv.cleanup tr outDir w)).1 with
    | some e => exact RenderClient_mkdir_error cenv tr outDir w e hmk
    | none => rw [RenderClient_ok cenv tr outDir w hmk]
  refine ⟨heq, by rw [heq], ?_⟩
  intro hmk
  refine ⟨by rw [heq, hmk], ?_⟩
  rw [RenderClient_ok cenv tr outDir w hmk]
  obtain ⟨L, h1, h2, h3⟩ := foldl_renderClientStep cenv tr outDir tr.serviceKeys
    (fun n hn => (mem_serviceKeys tr n).1 hn)
    (clientShared cenv tr outDir
      ((cenv.mkdirAll outDir (cenv.cleanup tr outDir w)).2,
        [.common (.cleanup outDir), .common (.mkdirAll outDir none)]))
  have hL : clientRenders (tr.serviceKeys.foldl (renderClientStep cenv tr outDir)
      (clientShared cenv tr outDir
        ((cenv.mkdirAll outDir (cenv.cleanup tr outDir w)).2,
          [.common (.cleanup outDir), .common (.mkdirAll outDir none)]))).2 = L := by
    rw [h1, clientRenders_clientShared]
    simp [clientRenders]
  simp only [hL]
  refine ⟨h2, by rw [h2]; exact serviceKeys_sorted tr, ?_, h3⟩
  intro name hk
  rw [h2]
  exact List.count_eq_one_of_mem (serviceKeys_nodup tr) ((mem_serviceKeys tr name).2 hk)

/-- Witness of C12: the map lists `Beta` before `Alpha`, the directory is created, the six
shared client emitters called for a JSON-RPC transport and the client renders of `Alpha`
and `Beta` all fail, and `RenderClient` returns nil after the client render of `Alpha`
followed by that of `Beta`. -/
theorem RenderClient_error_iff_mkdir_witness :
    (jsonTransportOf [("Alpha", "a"), ("Beta", "b")]).services.keys = ["Beta", "Alpha"] ∧
    ((demoClient false true).mkdirAll "out" ((demoClient false true).cleanup
      (jsonTransportOf [("Alpha", "a"), ("Beta", "b")]) "out" [])).1 = none ∧
    (clientEmits ((jsonTransportOf [("Alpha", "a"), ("Beta", "b")]).RenderClient
      (demoClient false true) "out" []).2.2).map (fun p => p.2.isSome) =
      [true, true, true, true, true, true] ∧
    clientRenders ((jsonTransportOf [("Alpha", "a"), ("Beta", "b")]).RenderClient
      (demoClient false true) "out" []).2.2 =
      [("Alpha", some "client render failed"), ("Beta", some "client render failed")] ∧
    ((jsonTransportOf [("Alpha", "a"), ("Beta", "b")]).RenderClient
      (demoClient false true) "out" []).1 = none ∧
    ((clientRenders ((jsonTransportOf [("Alpha", "a"), ("Beta", "b")]).RenderClient
      (demoClient false true) "out" []).2.2).map Prod.fst).Sorted
        (fun a b => strLE a b = true) :=
  ⟨by decide, by decide, by decide, by decide, by decide,
    ((RenderClient_error_iff_mkdir (demoClient false true)
      (jsonTransportOf [("Alpha", "a"), ("Beta", "b")]) "out" []).2.2 (by decide)).2.2.1⟩

end Tg
